import Mathlib

/-!
A shallow embedding of the competitor-monitor pipeline: the bounded web
crawler (src/crawler.py), the change detector (src/change_detector.py) and
the visual screenshot comparison (src/screenshot_monitor.py), together with
theorems settling claims about them.

External libraries are handled as follows: URL parsing (urllib.parse) and
relative-URL joining are explicit function parameters of the crawler
definitions; the network plus HTML parser (requests + BeautifulSoup) is a
function from a URL to an optional raw page (the anchor hrefs the parser
finds and the extracted text); difflib.SequenceMatcher is implemented
faithfully from its reference algorithm because the similarity claims
depend on its behaviour.  Python floats are modelled as rationals: every
float computation the claims touch is exact dyadic arithmetic, on which
the two agree.
-/

namespace CompMon

/-! ## Generic helpers -/

/-- First-occurrence deduplication: the model of building a Python `set`
from a list and then iterating it.  Python set iteration order is
implementation defined; the model fixes first-occurrence order.  Used for
`list(set(..))` and for dict key iteration (dict keys appear in
first-insertion order). -/
def firstDedup (seen : List String) : List String → List String
  | [] => []
  | x :: xs => if x ∈ seen then firstDedup seen xs else x :: firstDedup (x :: seen) xs

theorem mem_firstDedup (seen : List String) (l : List String) (x : String) :
    x ∈ firstDedup seen l ↔ x ∈ l ∧ x ∉ seen := by
  induction l generalizing seen with
  | nil => simp [firstDedup]
  | cons y ys ih =>
    simp only [firstDedup]
    by_cases hy : y ∈ seen
    · rw [if_pos hy, ih]
      constructor
      · rintro ⟨hx, hs⟩; exact ⟨List.mem_cons_of_mem _ hx, hs⟩
      · rintro ⟨hmem, hs⟩
        rcases List.mem_cons.mp hmem with rfl | hx
        · exact absurd hy hs
        · exact ⟨hx, hs⟩
    · rw [if_neg hy]
      constructor
      · intro hmem
        rcases List.mem_cons.mp hmem with rfl | hmem
        · exact ⟨List.mem_cons_self _ _, hy⟩
        · rw [ih] at hmem
          obtain ⟨hx, hs⟩ := hmem
          simp only [List.mem_cons, not_or] at hs
          exact ⟨List.mem_cons_of_mem _ hx, hs.2⟩
      · rintro ⟨hmem, hs⟩
        rcases List.mem_cons.mp hmem with rfl | hx
        · exact List.mem_cons_self _ _
        · by_cases hxy : x = y
          · exact hxy ▸ List.mem_cons_self _ _
          · refine List.mem_cons_of_mem _ ?_
            rw [ih]
            exact ⟨hx, by simp [List.mem_cons, hs, hxy]⟩

theorem nodup_firstDedup (seen : List String) (l : List String) :
    (firstDedup seen l).Nodup := by
  induction l generalizing seen with
  | nil => simp [firstDedup]
  | cons y ys ih =>
    by_cases hy : y ∈ seen
    · simpa [firstDedup, hy] using ih seen
    · simp only [firstDedup, if_neg hy, List.nodup_cons]
      refine ⟨fun hmem => ?_, ih _⟩
      rw [mem_firstDedup] at hmem
      exact hmem.2 (List.mem_cons_self _ _)

/-- Whether `pre` is a prefix of `l` (character lists). -/
def listStartsWith : List Char → List Char → Bool
  | _, [] => true
  | [], _ :: _ => false
  | c :: t, p :: ps => c = p && listStartsWith t ps

/-- Whether `pat` occurs as a contiguous substring of `hay`. -/
def listInfix (hay pat : List Char) : Bool :=
  match hay with
  | [] => pat.isEmpty
  | _ :: t => listStartsWith hay pat || listInfix t pat

/-- Python `pat in s`: substring occurrence. -/
def containsSub (s pat : String) : Bool := listInfix s.data pat.data

/-- Python `s.endswith(pat)`. -/
def endsWithSub (s pat : String) : Bool := listStartsWith s.data.reverse pat.data.reverse

/-- Python `str.lower()` (ASCII case folding; the claims touch no
locale-dependent characters). -/
def strLower (s : String) : String := String.mk (s.data.map Char.toLower)

/-- Python `str.rstrip("/")`. -/
def rstripSlash (s : String) : String := String.mk ((s.data.reverse.dropWhile (· = '/')).reverse)

/-- Python `str.split()` with no argument: split on whitespace runs,
dropping empty pieces. -/
def splitWs (s : String) : List String := go s.data [] where
  go : List Char → List Char → List String
    | [], acc => if acc.isEmpty then [] else [String.mk acc.reverse]
    | c :: cs, acc =>
      if c.isWhitespace then
        if acc.isEmpty then go cs [] else String.mk acc.reverse :: go cs []
      else go cs (c :: acc)

/-! ## Configuration constants (src/config.py) -/

def MAX_PAGES_PER_SITE : ℕ := 50

def MAX_CRAWL_DEPTH : ℕ := 2

def CONTENT_CHANGE_THRESHOLD : ℚ := 5

def VISUAL_CHANGE_THRESHOLD : ℚ := 10

/-! ## Crawler (src/crawler.py)

`urllib.parse.urlparse` is modelled as a parameter `parse` returning the
scheme, netloc and path components, and `urllib.parse.urljoin` as a
parameter `join`.  The network together with BeautifulSoup is a parameter
`net : String → Option RawPage`: `none` is a `requests.RequestException`
(network error, timeout, or the non-2xx raised by `raise_for_status`), and
`some raw` carries what the crawler reads off the parsed HTML — the anchor
`href` values in document order and the extracted text content. -/

structure ParsedURL where
  scheme : String
  netloc : String
  path : String
deriving DecidableEq

/-- What a successful fetch plus HTML parse yields. -/
structure RawPage where
  hrefs : List String
  text_content : String
deriving DecidableEq

/-- A crawled page as `fetch_page` returns it.  The `status_code`, raw
`html`, `content_hash` (an md5 digest of the text) and `fetched_at`
timestamp fields of the Python dict are not modelled: no claim about the
crawler touches them. -/
structure Page where
  url : String
  text_content : String
  links : List String
deriving DecidableEq

/-- WebCrawler.is_same_domain: exact netloc string equality. -/
def is_same_domain (parse : String → ParsedURL) (base_url target_url : String) : Bool :=
  (parse base_url).netloc == (parse target_url).netloc

/-- WebCrawler.normalize_url: rebuild scheme://netloc + path (dropping the
query and fragment) and strip trailing slashes. -/
def normalize_url (parse : String → ParsedURL) (url : String) : String :=
  rstripSlash ((parse url).scheme ++ "://" ++ (parse url).netloc ++ (parse url).path)

/-- The skip_patterns test of WebCrawler.extract_links: each regex is a
case-insensitive substring search, except the three `$`-anchored file
extensions which are suffix tests. -/
def matchesSkipPattern (url : String) : Bool :=
  let t := strLower url
  containsSub t "/login" || containsSub t "/signup" || containsSub t "/signin" ||
  containsSub t "/logout" || containsSub t "/cart" || containsSub t "/checkout" ||
  endsWithSub t ".pdf" || endsWithSub t ".zip" || endsWithSub t ".exe" ||
  containsSub t "?" || containsSub t "#" || containsSub t "mailto:" ||
  containsSub t "tel:" || containsSub t "javascript:"

/-- WebCrawler.extract_links: join each href against the page's own URL,
normalize, keep the same-domain non-skipped ones, and deduplicate
(`list(set(links))`). -/
def extract_links (parse : String → ParsedURL) (join : String → String → String)
    (hrefs : List String) (base_url : String) : List String :=
  firstDedup []
    ((hrefs.map fun href => normalize_url parse (join base_url href)).filter
      fun normalized => is_same_domain parse base_url normalized && !matchesSkipPattern normalized)

/-- WebCrawler.fetch_page: a fetch failure returns `none`; a success builds
the page record, extracting links against the fetched URL itself. -/
def fetch_page (parse : String → ParsedURL) (join : String → String → String)
    (net : String → Option RawPage) (url : String) : Option Page :=
  match net url with
  | none => none
  | some raw =>
      some { url := url, text_content := raw.text_content,
             links := extract_links parse join raw.hrefs url }

/-- The crawler state after a crawl: the collected pages (the return value
of `crawl_site`), the `visited_urls` set left in `self`, and the number of
`fetch_page` calls the loop made (instrumentation for the resource claim;
every fetch is counted exactly where the call happens). -/
structure CrawlResult where
  pages : List Page
  visited : List String
  fetches : ℕ
deriving DecidableEq

/-- The while-loop of WebCrawler.crawl_site.  The loop runs while the queue
is non-empty and fewer than `maxPages` pages are collected; it pops the
front, skips visited URLs, marks the URL visited, fetches it, and on
success appends the page and (below `maxDepth`) enqueues its not-yet-visited
links at depth+1.  Termination measure: a successful fetch grows `pages`
(bounded by `maxPages`), every other iteration shortens the queue. -/
def crawlLoop (fetchp : String → Option Page) (maxPages maxDepth : ℕ)
    (visited : List String) (pages : List Page) (fetches : ℕ) :
    List (String × ℕ) → CrawlResult
  | [] => ⟨pages, visited, fetches⟩
  | (url, depth) :: rest =>
    if h : pages.length < maxPages then
      if url ∈ visited then
        crawlLoop fetchp maxPages maxDepth visited pages fetches rest
      else
        match fetchp url with
        | none => crawlLoop fetchp maxPages maxDepth (url :: visited) pages (fetches + 1) rest
        | some page =>
            crawlLoop fetchp maxPages maxDepth (url :: visited) (pages ++ [page]) (fetches + 1)
              (rest ++ (if depth < maxDepth then
                ((page.links.filter (fun l => l ∉ url :: visited)).map fun l => (l, depth + 1))
                else []))
    else ⟨pages, visited, fetches⟩
termination_by queue => (maxPages - pages.length, queue.length)
decreasing_by
  · apply Prod.Lex.right; simp
  · apply Prod.Lex.right; simp
  · apply Prod.Lex.left; simp only [List.length_append, List.length_cons]; omega

/-- Python `max_pages or MAX_PAGES_PER_SITE`: `None` and `0` are falsy. -/
def orDefault (x : Option ℕ) (dflt : ℕ) : ℕ :=
  match x with
  | none => dflt
  | some n => if n = 0 then dflt else n

/-- WebCrawler.crawl_site: resolve the optional caps, reset the visited
set, and run the loop from the normalized homepage at depth 0. -/
def crawl_site (parse : String → ParsedURL) (join : String → String → String)
    (net : String → Option RawPage) (max_pages max_depth : Option ℕ)
    (homepage : String) : CrawlResult :=
  crawlLoop (fetch_page parse join net)
    (orDefault max_pages MAX_PAGES_PER_SITE) (orDefault max_depth MAX_CRAWL_DEPTH)
    [] [] 0 [(normalize_url parse homepage, 0)]

/-! ### Crawler loop lemmas -/

theorem extract_links_netloc (parse : String → ParsedURL) (join : String → String → String)
    (hrefs : List String) (base_url : String) (l : String)
    (hl : l ∈ extract_links parse join hrefs base_url) :
    (parse l).netloc = (parse base_url).netloc := by
  unfold extract_links at hl
  rw [mem_firstDedup] at hl
  obtain ⟨hl, -⟩ := hl
  rw [List.mem_filter] at hl
  obtain ⟨-, hcond⟩ := hl
  have hsd : is_same_domain parse base_url l = true := by
    cases hand : is_same_domain parse base_url l
    · rw [hand] at hcond; simp at hcond
    · rfl
  unfold is_same_domain at hsd
  exact (eq_of_beq hsd).symm

/-- Loop invariant behind C1: if the fetch function only ever returns pages
whose record URL is the fetched URL and whose links share that URL's
netloc, then from a state where every queued URL and every collected page
(and its links) has netloc `H`, the loop only collects pages (and links)
with netloc `H`. -/
theorem crawlLoop_netloc (fetchp : String → Option Page) (maxPages maxDepth : ℕ)
    (parse : String → ParsedURL) (H : String)
    (hfetch : ∀ u p, fetchp u = some p → p.url = u ∧
      ∀ l ∈ p.links, (parse l).netloc = (parse u).netloc) :
    ∀ (visited : List String) (pages : List Page) (fetches : ℕ) (queue : List (String × ℕ)),
    (∀ x ∈ queue, (parse x.1).netloc = H) →
    (∀ p ∈ pages, (parse p.url).netloc = H ∧ ∀ l ∈ p.links, (parse l).netloc = H) →
    ∀ p ∈ (crawlLoop fetchp maxPages maxDepth visited pages fetches queue).pages,
      (parse p.url).netloc = H ∧ ∀ l ∈ p.links, (parse l).netloc = H := by
  intro visited pages fetches queue
  induction visited, pages, fetches, queue using crawlLoop.induct fetchp maxPages maxDepth with
  | case1 visited pages fetches =>
    intro _ hpages
    simpa only [crawlLoop] using hpages
  | case2 visited pages fetches url depth rest hlt hmem ih =>
    intro hqueue hpages
    rw [crawlLoop, dif_pos hlt, if_pos hmem]
    exact ih (fun x hx => hqueue x (List.mem_cons_of_mem _ hx)) hpages
  | case3 visited pages fetches url depth rest hlt hmem hfail ih =>
    intro hqueue hpages
    rw [crawlLoop, dif_pos hlt, if_neg hmem, hfail]
    exact ih (fun x hx => hqueue x (List.mem_cons_of_mem _ hx)) hpages
  | case4 visited pages fetches url depth rest hlt hmem page hsucc ih =>
    intro hqueue hpages
    rw [crawlLoop, dif_pos hlt, if_neg hmem, hsucc]
    have hurl : (parse url).netloc = H := hqueue (url, depth) (List.mem_cons_self _ _)
    obtain ⟨hpu, hplinks⟩ := hfetch url page hsucc
    refine ih ?_ ?_
    · intro x hx
      rcases List.mem_append.mp hx with hx | hx
      · exact hqueue x (List.mem_cons_of_mem _ hx)
      · split at hx
        · obtain ⟨l, hlmem, rfl⟩ := List.mem_map.mp hx
          exact (hplinks l (List.mem_of_mem_filter hlmem)).trans hurl
        · simp at hx
    · intro p hp
      rcases List.mem_append.mp hp with hp | hp
      · exact hpages p hp
      · rcases List.mem_singleton.mp hp with rfl
        exact ⟨hpu ▸ hurl, fun l hl => (hplinks l hl).trans hurl⟩
  | case5 visited pages fetches url depth rest hge =>
    intro _ hpages
    rw [crawlLoop, dif_neg hge]
    exact hpages

/-- Loop invariant behind C8: every page the loop ever collects is either
already in the accumulator or is exactly what the fetch function returned
for its own URL — a failed fetch can never contribute a page. -/
theorem crawlLoop_pages_fetched (fetchp : String → Option Page) (maxPages maxDepth : ℕ)
    (hfetch : ∀ u p, fetchp u = some p → p.url = u) :
    ∀ (visited : List String) (pages : List Page) (fetches : ℕ) (queue : List (String × ℕ)),
    (∀ p ∈ pages, fetchp p.url = some p) →
    ∀ p ∈ (crawlLoop fetchp maxPages maxDepth visited pages fetches queue).pages,
      fetchp p.url = some p := by
  intro visited pages fetches queue
  induction visited, pages, fetches, queue using crawlLoop.induct fetchp maxPages maxDepth with
  | case1 visited pages fetches =>
    intro hpages
    simpa only [crawlLoop] using hpages
  | case2 visited pages fetches url depth rest hlt hmem ih =>
    intro hpages
    rw [crawlLoop, dif_pos hlt, if_pos hmem]
    exact ih hpages
  | case3 visited pages fetches url depth rest hlt hmem hfail ih =>
    intro hpages
    rw [crawlLoop, dif_pos hlt, if_neg hmem, hfail]
    exact ih hpages
  | case4 visited pages fetches url depth rest hlt hmem page hsucc ih =>
    intro hpages
    rw [crawlLoop, dif_pos hlt, if_neg hmem, hsucc]
    refine ih ?_
    intro p hp
    rcases List.mem_append.mp hp with hp | hp
    · exact hpages p hp
    · rcases List.mem_singleton.mp hp with rfl
      rw [hfetch url p hsucc]
      exact hsucc
  | case5 visited pages fetches url depth rest hge =>
    intro hpages
    rw [crawlLoop, dif_neg hge]
    exact hpages

/-- Loop invariant behind C2: the page list never exceeds `maxPages`, the
visited set stays duplicate-free, and the number of fetch calls made by the
loop equals the number of URLs newly added to the visited set (every fetch
is preceded by exactly one visited-set insertion and vice versa). -/
theorem crawlLoop_bounds (fetchp : String → Option Page) (maxPages maxDepth : ℕ) :
    ∀ (visited : List String) (pages : List Page) (fetches : ℕ) (queue : List (String × ℕ)),
    pages.length ≤ maxPages → visited.Nodup →
    (crawlLoop fetchp maxPages maxDepth visited pages fetches queue).pages.length ≤ maxPages ∧
    (crawlLoop fetchp maxPages maxDepth visited pages fetches queue).visited.Nodup ∧
    (crawlLoop fetchp maxPages maxDepth visited pages fetches queue).fetches + visited.length =
      fetches + (crawlLoop fetchp maxPages maxDepth visited pages fetches queue).visited.length := by
  intro visited pages fetches queue
  induction visited, pages, fetches, queue using crawlLoop.induct fetchp maxPages maxDepth with
  | case1 visited pages fetches =>
    intro hle hnd
    simp only [crawlLoop]
    exact ⟨hle, hnd, trivial⟩
  | case2 visited pages fetches url depth rest hlt hmem ih =>
    intro hle hnd
    rw [crawlLoop, dif_pos hlt, if_pos hmem]
    exact ih hle hnd
  | case3 visited pages fetches url depth rest hlt hmem hfail ih =>
    intro hle hnd
    rw [crawlLoop, dif_pos hlt, if_neg hmem]
    simp only [hfail]
    obtain ⟨h1, h2, h3⟩ := ih hle (List.nodup_cons.mpr ⟨hmem, hnd⟩)
    refine ⟨h1, h2, ?_⟩
    simp only [List.length_cons] at h3
    omega
  | case4 visited pages fetches url depth rest hlt hmem page hsucc ih =>
    intro hle hnd
    rw [crawlLoop, dif_pos hlt, if_neg hmem]
    simp only [hsucc]
    obtain ⟨h1, h2, h3⟩ := ih
      (by simp only [List.length_append, List.length_cons, List.length_nil]; omega)
      (List.nodup_cons.mpr ⟨hmem, hnd⟩)
    simp only [dite_eq_ite] at h1 h2 h3
    refine ⟨h1, h2, ?_⟩
    simp only [List.length_cons] at h3
    omega
  | case5 visited pages fetches url depth rest hge =>
    intro hle hnd
    rw [crawlLoop, dif_neg hge]
    exact ⟨hle, hnd, rfl⟩

/-! ### A concrete crawl scenario

Used to instantiate the crawler theorems at concrete inputs: a tiny
concrete URL parser, an identity joiner (the scenario's hrefs are already
absolute), and a network where the homepage succeeds with two outgoing
links and both links fail to fetch. -/

/-- Splits a character list at the first occurrence of "://". -/
def splitScheme : List Char → Option (List Char × List Char)
  | [] => none
  | c :: t =>
    if listStartsWith (c :: t) [':', '/', '/'] then some ([], t.drop 2)
    else
      match splitScheme t with
      | none => none
      | some (pre, post) => some (c :: pre, post)

/-- A concrete urlparse instantiation: split at the first "://" provided a
non-empty alphabetic scheme precedes it; the netloc runs to the first
slash. -/
def parseW (s : String) : ParsedURL :=
  match splitScheme s.data with
  | none => ⟨"", "", s⟩
  | some (sch, rest) =>
    if sch ≠ [] ∧ sch.all Char.isAlpha then
      ⟨String.mk sch, String.mk (rest.takeWhile (· ≠ '/')), String.mk (rest.dropWhile (· ≠ '/'))⟩
    else ⟨"", "", s⟩

/-- A concrete urljoin instantiation: the scenario's hrefs are absolute. -/
def joinW : String → String → String := fun _ href => href

/-- The scenario network: the homepage has two same-domain links, both of
which fail to fetch. -/
def netW : String → Option RawPage := fun u =>
  if u = "http://h" then some ⟨["http://h/a", "http://h/b"], "home text"⟩ else none

/-- The page record the scenario's homepage fetch produces. -/
def homePageW : Page :=
  ⟨"http://h", "home text", ["http://h/a", "http://h/b"]⟩

theorem fetchW_home : fetch_page parseW joinW netW "http://h" = some homePageW := by decide

theorem fetchW_a : fetch_page parseW joinW netW "http://h/a" = none := by decide

theorem fetchW_b : fetch_page parseW joinW netW "http://h/b" = none := by decide

/-- Full evaluation of the scenario crawl with `maxPages = 2`: the homepage
is fetched (1 page collected), then both links are fetched and fail — three
fetches in all, one collected page, three visited URLs. -/
theorem crawlW_eval : crawl_site parseW joinW netW (some 2) (some 2) "http://h" =
    ⟨[homePageW], ["http://h/b", "http://h/a", "http://h"], 3⟩ := by
  show crawlLoop (fetch_page parseW joinW netW) 2 2 [] [] 0
      [(normalize_url parseW "http://h", 0)] = _
  rw [show normalize_url parseW "http://h" = "http://h" from by decide]
  rw [crawlLoop, dif_pos (by decide : ([] : List Page).length < 2),
    if_neg (by decide : ¬ "http://h" ∈ ([] : List String))]
  simp only [fetchW_home]
  show crawlLoop (fetch_page parseW joinW netW) 2 2 ["http://h"] [homePageW] 1
      [("http://h/a", 1), ("http://h/b", 1)] = _
  rw [crawlLoop, dif_pos (by decide : [homePageW].length < 2),
    if_neg (by decide : ¬ "http://h/a" ∈ ["http://h"])]
  simp only [fetchW_a]
  rw [crawlLoop, dif_pos (by decide : [homePageW].length < 2),
    if_neg (by decide : ¬ "http://h/b" ∈ ["http://h/a", "http://h"])]
  simp only [fetchW_b]
  rw [crawlLoop]

/-! ### Claim C1 -/

/-- C1: during a crawl started at a homepage, every outgoing link the
crawler keeps (hence every URL it enqueues) and every URL it fetches has
exactly the host of the homepage: same-domain is exact netloc string
equality, and because every page in the crawl carries the homepage's
netloc, equality against the current page's netloc coincides with equality
against the original homepage's netloc.  The hypothesis `hrt` says URL
normalization preserves the homepage's netloc (true of urlparse on any
well-formed absolute URL); the conclusion is stated against the homepage,
and via `hrt` equally against the normalized homepage. -/
theorem crawl_site_same_domain (parse : String → ParsedURL) (join : String → String → String)
    (net : String → Option RawPage) (max_pages max_depth : Option ℕ) (homepage : String)
    (hrt : (parse (normalize_url parse homepage)).netloc = (parse homepage).netloc)
    (p : Page) (hp : p ∈ (crawl_site parse join net max_pages max_depth homepage).pages) :
    (parse p.url).netloc = (parse homepage).netloc ∧
      ∀ l ∈ p.links, (parse l).netloc = (parse homepage).netloc := by
  have hfetch : ∀ u q, fetch_page parse join net u = some q → q.url = u ∧
      ∀ l ∈ q.links, (parse l).netloc = (parse u).netloc := by
    intro u q hq
    unfold fetch_page at hq
    cases hnet : net u with
    | none => rw [hnet] at hq; cases hq
    | some raw =>
      rw [hnet] at hq
      cases hq
      exact ⟨rfl, fun l hl => extract_links_netloc parse join raw.hrefs u l hl⟩
  refine crawlLoop_netloc (fetch_page parse join net)
    (orDefault max_pages MAX_PAGES_PER_SITE) (orDefault max_depth MAX_CRAWL_DEPTH)
    parse ((parse homepage).netloc) hfetch
    [] [] 0 [(normalize_url parse homepage, 0)] ?_ ?_ p hp
  · intro x hx
    rcases List.mem_singleton.mp hx with rfl
    exact hrt
  · intro q hq
    cases hq

/-- Witness for C1 at the concrete scenario: the homepage's page record and
each of its links carry the homepage host "h". -/
theorem crawl_site_same_domain_witness :
    (parseW homePageW.url).netloc = (parseW "http://h").netloc ∧
      ∀ l ∈ homePageW.links, (parseW l).netloc = (parseW "http://h").netloc := by
  refine crawl_site_same_domain parseW joinW netW (some 2) (some 2) "http://h"
    (by decide) homePageW ?_
  rw [crawlW_eval]
  exact List.mem_singleton.mpr rfl

/-! ### Claim C2 -/

/-- Counterexample to C2 as stated: with `maxPages = 2`, a crawl whose
homepage succeeds with two links that both fail to fetch performs three
fetches — "at most maxPages fetches" is false, because the loop cap counts
collected pages (successful fetches), not fetch attempts. -/
theorem crawl_site_fetches_cex :
    (crawl_site parseW joinW netW (some 2) (some 2) "http://h").fetches = 3 ∧
      ¬ (crawl_site parseW joinW netW (some 2) (some 2) "http://h").fetches ≤ 2 ∧
      (crawl_site parseW joinW netW (some 2) (some 2) "http://h").pages.length = 1 := by
  rw [crawlW_eval]
  exact ⟨rfl, by decide, rfl⟩

/-- C2 (amended): for every homepage and network (cyclic link graphs
included) the crawl terminates (the model's loop is a total function), it
collects at most `maxPages` pages — i.e. performs at most `maxPages`
*successful* fetches, though failed fetch attempts can push the total fetch
count beyond `maxPages` — and it fetches each normalized URL at most once:
the visited set stays duplicate-free and the number of fetch calls equals
the number of distinct visited URLs.  `maxPages ≠ 0` keeps Python's
`max_pages or MAX_PAGES_PER_SITE` from replacing the cap with the
default. -/
theorem crawl_site_bounds (parse : String → ParsedURL) (join : String → String → String)
    (net : String → Option RawPage) (mp md : ℕ) (homepage : String) (hmp : mp ≠ 0) :
    (crawl_site parse join net (some mp) (some md) homepage).pages.length ≤ mp ∧
      (crawl_site parse join net (some mp) (some md) homepage).visited.Nodup ∧
      (crawl_site parse join net (some mp) (some md) homepage).fetches =
        (crawl_site parse join net (some mp) (some md) homepage).visited.length := by
  have hor : orDefault (some mp) MAX_PAGES_PER_SITE = mp := by
    simp [orDefault, hmp]
  simp only [crawl_site, hor]
  obtain ⟨h1, h2, h3⟩ := crawlLoop_bounds (fetch_page parse join net) mp
    (orDefault (some md) MAX_CRAWL_DEPTH) [] [] 0 [(normalize_url parse homepage, 0)]
    (by simp) List.nodup_nil
  exact ⟨h1, h2, by simpa using h3⟩

/-- Witness for C2's amended theorem at the concrete scenario. -/
theorem crawl_site_bounds_witness :
    (crawl_site parseW joinW netW (some 2) (some 2) "http://h").pages.length ≤ 2 ∧
      (crawl_site parseW joinW netW (some 2) (some 2) "http://h").visited.Nodup ∧
      (crawl_site parseW joinW netW (some 2) (some 2) "http://h").fetches =
        (crawl_site parseW joinW netW (some 2) (some 2) "http://h").visited.length :=
  crawl_site_bounds parseW joinW netW 2 2 "http://h" (by decide)

/-! ### Claim C8 -/

/-- C8: a failed fetch is a typed `none` result rather than an exception
crossing the boundary; no failed URL ever contributes a page to the
snapshot (every collected page comes from a successful fetch of its own
URL, so no failed fetch can appear as an empty-but-successful page); and
the loop simply marks a failing URL visited, counts the fetch, and
continues with the remaining queue. -/
theorem crawl_failed_fetch_omitted (parse : String → ParsedURL) (join : String → String → String)
    (net : String → Option RawPage) (max_pages max_depth : Option ℕ) (homepage : String)
    (u : String) (hfail : net u = none) :
    fetch_page parse join net u = none ∧
      (∀ p ∈ (crawl_site parse join net max_pages max_depth homepage).pages,
        p.url ≠ u ∧ ∃ raw, net p.url = some raw) ∧
      (∀ (visited : List String) (pages : List Page) (fetches : ℕ) (d : ℕ)
          (rest : List (String × ℕ)),
        pages.length < orDefault max_pages MAX_PAGES_PER_SITE → u ∉ visited →
        crawlLoop (fetch_page parse join net) (orDefault max_pages MAX_PAGES_PER_SITE)
            (orDefault max_depth MAX_CRAWL_DEPTH) visited pages fetches ((u, d) :: rest) =
          crawlLoop (fetch_page parse join net) (orDefault max_pages MAX_PAGES_PER_SITE)
            (orDefault max_depth MAX_CRAWL_DEPTH) (u :: visited) pages (fetches + 1) rest) := by
  have hfp : fetch_page parse join net u = none := by
    unfold fetch_page
    rw [hfail]
  have hfetch : ∀ v q, fetch_page parse join net v = some q → q.url = v := by
    intro v q hq
    unfold fetch_page at hq
    cases hnet : net v with
    | none => rw [hnet] at hq; cases hq
    | some raw => rw [hnet] at hq; cases hq; rfl
  refine ⟨hfp, ?_, ?_⟩
  · intro p hp
    have hfetched := crawlLoop_pages_fetched (fetch_page parse join net)
      (orDefault max_pages MAX_PAGES_PER_SITE) (orDefault max_depth MAX_CRAWL_DEPTH)
      hfetch [] [] 0 [(normalize_url parse homepage, 0)] (fun q hq => absurd hq (by simp))
      p hp
    constructor
    · intro heq
      rw [heq, hfp] at hfetched
      cases hfetched
    · unfold fetch_page at hfetched
      cases hnet : net p.url with
      | none => rw [hnet] at hfetched; cases hfetched
      | some raw => exact ⟨raw, rfl⟩
  · intro visited pages fetches d rest hlt hmem
    rw [crawlLoop, dif_pos hlt, if_neg hmem]
    simp only [hfp]

/-- Witness for C8 at the concrete scenario: "http://h/a" fails to fetch,
is absent from the collected pages, and the loop's step on it just records
the attempt and continues. -/
theorem crawl_failed_fetch_omitted_witness :
    fetch_page parseW joinW netW "http://h/a" = none ∧
      (∀ p ∈ (crawl_site parseW joinW netW (some 2) (some 2) "http://h").pages,
        p.url ≠ "http://h/a" ∧ ∃ raw, netW p.url = some raw) ∧
      (∀ (visited : List String) (pages : List Page) (fetches : ℕ) (d : ℕ)
          (rest : List (String × ℕ)),
        pages.length < orDefault (some 2) MAX_PAGES_PER_SITE → "http://h/a" ∉ visited →
        crawlLoop (fetch_page parseW joinW netW) (orDefault (some 2) MAX_PAGES_PER_SITE)
            (orDefault (some 2) MAX_CRAWL_DEPTH) visited pages fetches
            (("http://h/a", d) :: rest) =
          crawlLoop (fetch_page parseW joinW netW) (orDefault (some 2) MAX_PAGES_PER_SITE)
            (orDefault (some 2) MAX_CRAWL_DEPTH) ("http://h/a" :: visited) pages
            (fetches + 1) rest) :=
  crawl_failed_fetch_omitted parseW joinW netW (some 2) (some 2) "http://h" "http://h/a"
    (by decide)

/-! ## difflib.SequenceMatcher (used by calculate_text_similarity)

The repository computes text similarity as
`difflib.SequenceMatcher(None, text1, text2).ratio()`.  Claim C5 asserts
properties of this metric itself, so the matcher is implemented from its
reference algorithm: `__chain_b` builds the per-character position table
over `b` and, with autojunk on and `len(b) >= 200`, purges "popular"
characters; `find_longest_match` runs one dynamic-programming sweep plus
its two non-junk extension loops (the junk function is `None`, so `bjunk`
is empty and the two junk extension loops never fire); the matching-blocks
recursion sums the block sizes (sorting and merging adjacent blocks do not
change the sum `ratio` consumes); `ratio = 2*matches/(len(a)+len(b))`. -/

/-- One insertion step of `__chain_b`'s first loop:
`b2j.setdefault(elt, []).append(i)`. -/
def b2jInsert (m : List (Char × List ℕ)) (c : Char) (i : ℕ) : List (Char × List ℕ) :=
  if m.any (fun e => e.1 = c) then
    m.map (fun e => if e.1 = c then (e.1, e.2 ++ [i]) else e)
  else m ++ [(c, [i])]

/-- The raw `b2j` table: every character of `b` mapped to its positions in
ascending order. -/
def b2jRaw (b : List Char) : List (Char × List ℕ) :=
  b.enum.foldl (fun m p => b2jInsert m p.2 p.1) []

/-- Dictionary lookup in the position table (`b2j.get(c, [])`). -/
def b2jGet (m : List (Char × List ℕ)) (c : Char) : List ℕ :=
  match m.find? (fun e => e.1 = c) with
  | none => []
  | some e => e.2

/-- The `__chain_b` method: build `b2j` and, since the junk parameter is
`None` and autojunk defaults to `True`, purge the popular characters
(strictly more than `n // 100 + 1` occurrences) when `n >= 200`;
equivalently, keep the entries with at most that many occurrences. -/
def chain_b (b : List Char) : List (Char × List ℕ) :=
  if 200 ≤ b.length then
    (b2jRaw b).filter (fun e => e.2.length ≤ b.length / 100 + 1)
  else b2jRaw b

/-- Lookup in a previous row of the dynamic programme
(`j2len.get(j, 0)`). -/
def j2lenGet (m : List (ℕ × ℕ)) (j : ℕ) : ℕ :=
  match m.find? (fun e => e.1 = j) with
  | none => 0
  | some e => e.2

/-- A `(besti, bestj, bestsize)` triple. -/
structure Match3 where
  besti : ℕ
  bestj : ℕ
  bestsize : ℕ
deriving DecidableEq

/-- The inner loop of `find_longest_match`'s sweep over row `i`: walk the
ascending positions of `a[i]` in `b`, skipping `j < blo`, breaking at
`j >= bhi`, recording `newj2len[j] = k = j2len.get(j-1, 0) + 1` (for
`j = 0` Python reads `j2len.get(-1, 0) = 0`), and updating the best match
when `k > bestsize`.  `i - k + 1` is written `i + 1 - k`: in every
reachable state `k ≤ i + 1` and `k ≤ j + 1`. -/
def flmInner (j2len : List (ℕ × ℕ)) (i blo bhi : ℕ) :
    List ℕ → List (ℕ × ℕ) → Match3 → List (ℕ × ℕ) × Match3
  | [], newj2len, best => (newj2len, best)
  | j :: js, newj2len, best =>
    if j < blo then flmInner j2len i blo bhi js newj2len best
    else if bhi ≤ j then (newj2len, best)
    else
      let k := (if j = 0 then 0 else j2lenGet j2len (j - 1)) + 1
      flmInner j2len i blo bhi js (newj2len ++ [(j, k)])
        (if best.bestsize < k then ⟨i + 1 - k, j + 1 - k, k⟩ else best)

/-- The row sweep of `find_longest_match`: for each `i` in `[alo, ahi)`
run the inner loop seeded from the previous row's `j2len`, starting from
`besti, bestj, bestsize = alo, blo, 0`. -/
def flmRows (a : List Char) (b2j : List (Char × List ℕ)) (alo ahi blo bhi : ℕ) : Match3 :=
  ((List.range' alo (ahi - alo)).foldl
    (fun st i => flmInner st.1 i blo bhi (b2jGet b2j (a.getD i ' ')) [] st.2)
    (([] : List (ℕ × ℕ)), (⟨alo, blo, 0⟩ : Match3))).2

/-- The first extension loop: extend the best block downwards over equal
non-junk characters (with `bjunk` empty the junk test always passes).
Structural recursion on `besti` (the loop's decreasing quantity): when
`besti = 0` the loop guard `alo < besti` is false and the loop exits. -/
def extendLo (a b : List Char) (alo blo : ℕ) : ℕ → ℕ → ℕ → Match3
  | 0, bestj, bestsize => ⟨0, bestj, bestsize⟩
  | besti + 1, bestj, bestsize =>
    if alo < besti + 1 ∧ blo < bestj ∧ a.getD besti ' ' = b.getD (bestj - 1) ' ' then
      extendLo a b alo blo besti (bestj - 1) (bestsize + 1)
    else ⟨besti + 1, bestj, bestsize⟩

/-- The second extension loop, on its exact iteration count
`ahi - (besti + bestsize)` (the loop's decreasing quantity): when it is 0
the guard `besti + bestsize < ahi` is false and the loop exits, so the
counter never runs out early. -/
def extendHiAux (a b : List Char) (ahi bhi besti bestj : ℕ) : ℕ → ℕ → Match3
  | 0, bestsize => ⟨besti, bestj, bestsize⟩
  | rem + 1, bestsize =>
    if besti + bestsize < ahi ∧ bestj + bestsize < bhi ∧
        a.getD (besti + bestsize) ' ' = b.getD (bestj + bestsize) ' ' then
      extendHiAux a b ahi bhi besti bestj rem (bestsize + 1)
    else ⟨besti, bestj, bestsize⟩

/-- The second extension loop: extend the best block upwards over equal
non-junk characters. -/
def extendHi (a b : List Char) (ahi bhi : ℕ) (besti bestj bestsize : ℕ) : Match3 :=
  extendHiAux a b ahi bhi besti bestj (ahi - (besti + bestsize)) bestsize

/-- SequenceMatcher.find_longest_match on `[alo, ahi) × [blo, bhi)`:
the dynamic-programming sweep followed by the two extension loops (the
junk-extension loops are no-ops because the junk set is empty). -/
def find_longest_match (a b : List Char) (b2j : List (Char × List ℕ))
    (alo ahi blo bhi : ℕ) : Match3 :=
  let m1 := flmRows a b2j alo ahi blo bhi
  let m2 := extendLo a b alo blo m1.besti m1.bestj m1.bestsize
  extendHi a b ahi bhi m2.besti m2.bestj m2.bestsize

/-- The total number of matched characters: get_matching_blocks' recursion,
keeping only the sum of block sizes (which is what `ratio` consumes; the
final sort and adjacent-block merge preserve it).  The recursion depth is
bounded by the window height, so `fuel = a.length + 1` at the top call
never runs out. -/
def blocksSum (a b : List Char) (b2j : List (Char × List ℕ)) :
    ℕ → ℕ → ℕ → ℕ → ℕ → ℕ
  | 0, _, _, _, _ => 0
  | fuel + 1, alo, ahi, blo, bhi =>
    let m := find_longest_match a b b2j alo ahi blo bhi
    if m.bestsize = 0 then 0
    else
      m.bestsize +
        (if alo < m.besti ∧ blo < m.bestj then
          blocksSum a b b2j fuel alo m.besti blo m.bestj else 0) +
        (if m.besti + m.bestsize < ahi ∧ m.bestj + m.bestsize < bhi then
          blocksSum a b b2j fuel (m.besti + m.bestsize) ahi (m.bestj + m.bestsize) bhi else 0)

/-- SequenceMatcher.ratio as an exact rational:
`2.0 * matches / (len(a) + len(b))`, and 1.0 when both are empty. -/
def smRatio (a b : List Char) : ℚ :=
  let nmatched := blocksSum a b (chain_b b) (a.length + 1) 0 a.length 0 b.length
  if a.length + b.length = 0 then 1 else 2 * (nmatched : ℚ) / (a.length + b.length)

/-- calculate_text_similarity (src/change_detector.py): 100.0 when both
texts are empty, 0.0 when exactly one is, otherwise the SequenceMatcher
ratio scaled to a percentage. -/
def calculate_text_similarity (text1 text2 : String) : ℚ :=
  if text1 = "" ∧ text2 = "" then 100
  else if text1 = "" ∨ text2 = "" then 0
  else smRatio text1.data text2.data * 100

/-! ### Characterizing the position table (towards C5) -/

/-- The ascending list of positions of `c` in `b`. -/
def occList (b : List Char) (c : Char) : List ℕ :=
  (List.range b.length).filter (fun j => b.getD j ' ' = c)

theorem mem_occList (b : List Char) (c : Char) (j : ℕ) :
    j ∈ occList b c ↔ j < b.length ∧ b.getD j ' ' = c := by
  simp [occList, List.mem_filter, List.mem_range]

theorem occList_sorted (b : List Char) (c : Char) : (occList b c).Pairwise (· < ·) :=
  (List.pairwise_lt_range b.length).filter _

theorem b2jGet_cons_ne (e : Char × List ℕ) (t : List (Char × List ℕ)) (c : Char)
    (he : e.1 ≠ c) : b2jGet (e :: t) c = b2jGet t c := by
  unfold b2jGet
  rw [List.find?_cons_of_neg _ (by simpa using he)]

theorem b2jGet_cons_eq (e : Char × List ℕ) (t : List (Char × List ℕ)) (c : Char)
    (he : e.1 = c) : b2jGet (e :: t) c = e.2 := by
  unfold b2jGet
  rw [List.find?_cons_of_pos _ (by simpa using he)]

theorem b2jGet_nil (c : Char) : b2jGet [] c = [] := rfl

theorem b2jGet_of_not_mem (m : List (Char × List ℕ)) (c : Char)
    (h : ∀ e ∈ m, e.1 ≠ c) : b2jGet m c = [] := by
  induction m with
  | nil => rfl
  | cons e t ih =>
    rw [b2jGet_cons_ne e t c (h e (List.mem_cons_self _ _))]
    exact ih fun x hx => h x (List.mem_cons_of_mem _ hx)

theorem b2jGet_insert_same (m : List (Char × List ℕ)) (c : Char) (i : ℕ) :
    b2jGet (b2jInsert m c i) c = b2jGet m c ++ [i] := by
  unfold b2jInsert
  by_cases hany : m.any (fun e => e.1 = c)
  · rw [if_pos hany]
    induction m with
    | nil => simp at hany
    | cons e t ih =>
      by_cases he : e.1 = c
      · rw [List.map_cons, if_pos he]
        rw [b2jGet_cons_eq (e.1, e.2 ++ [i]) _ c he, b2jGet_cons_eq e t c he]
      · simp only [List.any_cons, Bool.or_eq_true, decide_eq_true_eq] at hany
        rcases hany with hany | hany
        · exact absurd hany he
        · rw [List.map_cons, if_neg he, b2jGet_cons_ne _ _ _ he, b2jGet_cons_ne _ _ _ he]
          exact ih (by simpa using hany)
  · rw [if_neg hany]
    simp only [List.any_eq_true, decide_eq_true_eq, not_exists, not_and] at hany
    induction m with
    | nil =>
      rw [List.nil_append, b2jGet_nil, b2jGet_cons_eq _ _ _ rfl, List.nil_append]
    | cons e t ih =>
      have he : e.1 ≠ c := hany e (List.mem_cons_self _ _)
      rw [List.cons_append, b2jGet_cons_ne _ _ _ he, b2jGet_cons_ne _ _ _ he]
      exact ih fun x hx => hany x (List.mem_cons_of_mem _ hx)

theorem b2jGet_insert_ne (m : List (Char × List ℕ)) (c c' : Char) (i : ℕ) (h : c' ≠ c) :
    b2jGet (b2jInsert m c i) c' = b2jGet m c' := by
  unfold b2jInsert
  by_cases hany : m.any (fun e => e.1 = c)
  · rw [if_pos hany]
    clear hany
    induction m with
    | nil => rfl
    | cons e t ih =>
      by_cases he : e.1 = c'
      · have hec : ¬ e.1 = c := fun hec => h (hec ▸ he.symm)
        rw [List.map_cons, if_neg hec, b2jGet_cons_eq _ _ _ he, b2jGet_cons_eq _ _ _ he]
      · by_cases hec : e.1 = c
        · rw [List.map_cons, if_pos hec]
          rw [b2jGet_cons_ne (e.1, e.2 ++ [i]) _ c' he, b2jGet_cons_ne e t c' he]
          exact ih
        · rw [List.map_cons, if_neg hec, b2jGet_cons_ne _ _ _ he, b2jGet_cons_ne _ _ _ he]
          exact ih
  · rw [if_neg hany]
    induction m with
    | nil =>
      rw [List.nil_append, b2jGet_cons_ne _ _ _ (by simpa using h.symm)]
    | cons e t ih =>
      by_cases he : e.1 = c'
      · rw [List.cons_append, b2jGet_cons_eq _ _ _ he, b2jGet_cons_eq _ _ _ he]
      · rw [List.cons_append, b2jGet_cons_ne _ _ _ he, b2jGet_cons_ne _ _ _ he]
        exact ih (by
          simp only [List.any_cons, Bool.or_eq_true] at hany
          intro hc
          exact hany (Or.inr hc))

theorem occList_concat (b : List Char) (x : Char) (c : Char) :
    occList (b ++ [x]) c = occList b c ++ if x = c then [b.length] else [] := by
  unfold occList
  rw [List.length_append, List.length_singleton, List.range_succ, List.filter_append]
  congr 1
  · apply List.filter_congr
    intro j hj
    rw [List.mem_range] at hj
    rw [List.getD_append _ _ _ _ hj]
  · have hx : (b ++ [x]).getD b.length ' ' = x := by
      rw [List.getD_append_right _ _ _ _ le_rfl]
      simp
    by_cases hxc : x = c
    · simp [hx, hxc]
    · simp [hx, hxc]

theorem b2jRaw_concat (b : List Char) (x : Char) :
    b2jRaw (b ++ [x]) = b2jInsert (b2jRaw b) x b.length := by
  unfold b2jRaw
  rw [List.enum_append, List.foldl_append]
  rfl

theorem b2jRaw_get (b : List Char) (c : Char) : b2jGet (b2jRaw b) c = occList b c := by
  induction b using List.reverseRecOn with
  | nil => rfl
  | append_singleton b x ih =>
    rw [b2jRaw_concat, occList_concat]
    by_cases hxc : x = c
    · subst hxc
      rw [b2jGet_insert_same, ih, if_pos rfl]
    · rw [b2jGet_insert_ne _ _ _ _ (Ne.symm hxc), ih, if_neg hxc, List.append_nil]

theorem b2jKeys_insert (m : List (Char × List ℕ)) (c : Char) (i : ℕ) :
    (b2jInsert m c i).map Prod.fst =
      if m.any (fun e => e.1 = c) then m.map Prod.fst else m.map Prod.fst ++ [c] := by
  unfold b2jInsert
  by_cases hany : m.any (fun e => e.1 = c)
  · rw [if_pos hany, if_pos hany, List.map_map]
    apply List.map_congr_left
    intro e _
    by_cases he : e.1 = c <;> simp [he]
  · rw [if_neg hany, if_neg hany, List.map_append]
    rfl

theorem b2jRaw_keys_nodup (b : List Char) : ((b2jRaw b).map Prod.fst).Nodup := by
  induction b using List.reverseRecOn with
  | nil => simp [b2jRaw]
  | append_singleton b x ih =>
    rw [b2jRaw_concat, b2jKeys_insert]
    by_cases hany : (b2jRaw b).any (fun e => e.1 = x)
    · rw [if_pos hany]; exact ih
    · rw [if_neg hany]
      refine List.Nodup.append ih (List.nodup_singleton x) ?_
      rw [List.disjoint_singleton]
      simp only [List.any_eq_true, decide_eq_true_eq, not_exists, not_and] at hany
      intro hmem
      obtain ⟨e, he, heq⟩ := List.mem_map.mp hmem
      exact hany e he heq

theorem b2jGet_filter (m : List (Char × List ℕ)) (p : Char × List ℕ → Bool) (c : Char)
    (hnd : (m.map Prod.fst).Nodup) :
    b2jGet (m.filter p) c = b2jGet m c ∨ b2jGet (m.filter p) c = [] := by
  induction m with
  | nil => right; rfl
  | cons e t ih =>
    rw [List.map_cons, List.nodup_cons] at hnd
    obtain ⟨hkey, hnd⟩ := hnd
    by_cases he : e.1 = c
    · by_cases hp : p e
      · rw [List.filter_cons_of_pos hp, b2jGet_cons_eq _ _ _ he, b2jGet_cons_eq _ _ _ he]
        left; rfl
      · rw [List.filter_cons_of_neg (by simpa using hp)]
        right
        apply b2jGet_of_not_mem
        intro x hx hxc
        exact hkey (he ▸ hxc ▸ List.mem_map.mpr ⟨x, List.mem_of_mem_filter hx, rfl⟩)
    · by_cases hp : p e
      · rw [List.filter_cons_of_pos hp, b2jGet_cons_ne _ _ _ he, b2jGet_cons_ne _ _ _ he]
        exact ih hnd
      · rw [List.filter_cons_of_neg (by simpa using hp), b2jGet_cons_ne _ _ _ he]
        exact ih hnd

/-- The purged table's entry for any character is either its full ascending
occurrence list or empty (when the character is popular). -/
theorem chain_b_get (b : List Char) (c : Char) :
    b2jGet (chain_b b) c = occList b c ∨ b2jGet (chain_b b) c = [] := by
  unfold chain_b
  by_cases h2 : 200 ≤ b.length
  · rw [if_pos h2]
    rcases b2jGet_filter (b2jRaw b) _ c (b2jRaw_keys_nodup b) with h | h
    · left; rw [h, b2jRaw_get]
    · right; exact h
  · rw [if_neg h2]
    left
    exact b2jRaw_get b c

/-! ### The kept-position predicate and non-popular streaks -/

/-- Position `j` of `a` survives the autojunk purge: it appears in the
table entry of its own character. -/
def keptC (a : List Char) (j : ℕ) : Prop :=
  j ∈ b2jGet (chain_b a) (a.getD j ' ')

/-- Length of the run of consecutive kept positions ending at `j`. -/
def streakC (a : List Char) : ℕ → ℕ
  | 0 => if 0 ∈ b2jGet (chain_b a) (a.getD 0 ' ') then 1 else 0
  | j + 1 => if (j + 1) ∈ b2jGet (chain_b a) (a.getD (j + 1) ' ') then streakC a j + 1 else 0

/-- The cap that every previous-row DP value obeys. -/
def rowCap (a : List Char) : ℕ → ℕ
  | 0 => 0
  | r + 1 => streakC a r

theorem streakC_zero_kept (a : List Char) (h : keptC a 0) : streakC a 0 = 1 := by
  unfold keptC at h
  rw [streakC, if_pos h]

theorem streakC_succ_kept (a : List Char) (jp : ℕ) (h : keptC a (jp + 1)) :
    streakC a (jp + 1) = streakC a jp + 1 := by
  unfold keptC at h
  rw [streakC, if_pos h]

theorem streakC_of_not_kept (a : List Char) (j : ℕ) (h : ¬ keptC a j) :
    streakC a j = 0 := by
  unfold keptC at h
  cases j with
  | zero => rw [streakC, if_neg h]
  | succ jp => rw [streakC, if_neg h]

theorem streakC_pos_of_kept (a : List Char) (j : ℕ) (h : keptC a j) :
    1 ≤ streakC a j := by
  cases j with
  | zero => rw [streakC_zero_kept a h]
  | succ jp =>
    rw [streakC_succ_kept a jp h]
    omega

theorem streakC_le (a : List Char) (j : ℕ) : streakC a j ≤ j + 1 := by
  induction j with
  | zero =>
    rw [streakC]
    split <;> omega
  | succ jp ih =>
    rw [streakC]
    split <;> omega

/-- Kept-ness is a property of the character: if some position of a
character is kept, every position of that character is kept. -/
theorem kept_spread (a : List Char) (j j' : ℕ) (hj : keptC a j)
    (hlt : j' < a.length) (hc : a.getD j' ' ' = a.getD j ' ') : keptC a j' := by
  unfold keptC at hj ⊢
  rw [hc]
  rcases chain_b_get a (a.getD j ' ') with h | h
  · rw [h]
    rw [mem_occList]
    exact ⟨hlt, hc⟩
  · rw [h] at hj
    cases hj

theorem kept_of_mem_get (a : List Char) (r j : ℕ)
    (hj : j ∈ b2jGet (chain_b a) (a.getD r ' ')) :
    j < a.length ∧ a.getD j ' ' = a.getD r ' ' ∧ keptC a j := by
  rcases chain_b_get a (a.getD r ' ') with h | h
  · have hj' := hj
    rw [h, mem_occList] at hj'
    refine ⟨hj'.1, hj'.2, ?_⟩
    unfold keptC
    rw [hj'.2]
    exact hj
  · rw [h] at hj
    cases hj

/-! ### Dynamic-programming row lookups -/

theorem j2lenGet_nil (x : ℕ) : j2lenGet [] x = 0 := rfl

theorem j2lenGet_append_self (acc : List (ℕ × ℕ)) (j k : ℕ)
    (hfresh : ∀ e ∈ acc, e.1 ≠ j) : j2lenGet (acc ++ [(j, k)]) j = k := by
  induction acc with
  | nil =>
    unfold j2lenGet
    rw [List.nil_append, List.find?_cons_of_pos _ (by simp)]
  | cons e t ih =>
    have he : e.1 ≠ j := hfresh e (List.mem_cons_self _ _)
    unfold j2lenGet
    rw [List.cons_append, List.find?_cons_of_neg _ (by simpa using he)]
    exact ih fun x hx => hfresh x (List.mem_cons_of_mem _ hx)

theorem j2lenGet_append_ne (acc : List (ℕ × ℕ)) (j k x : ℕ) (hx : x ≠ j) :
    j2lenGet (acc ++ [(j, k)]) x = j2lenGet acc x := by
  induction acc with
  | nil =>
    unfold j2lenGet
    rw [List.nil_append, List.find?_cons_of_neg _ (by simpa using Ne.symm hx), List.find?_nil]
  | cons e t ih =>
    by_cases he : e.1 = x
    · unfold j2lenGet
      rw [List.cons_append, List.find?_cons_of_pos _ (by simpa using he),
        List.find?_cons_of_pos _ (by simpa using he)]
    · unfold j2lenGet
      rw [List.cons_append, List.find?_cons_of_neg _ (by simpa using he),
        List.find?_cons_of_neg _ (by simpa using he)]
      exact ih

/-! ### The value `k` computed for a column -/

theorem k_val_diag (a : List Char) (r : ℕ) (prev : List (ℕ × ℕ))
    (hprevS : ∀ x, j2lenGet prev x ≤ streakC a x)
    (hprevD : ∀ rp, r = rp + 1 → keptC a rp → j2lenGet prev rp = streakC a rp)
    (hkr : keptC a r) :
    (if r = 0 then 0 else j2lenGet prev (r - 1)) + 1 = streakC a r := by
  cases r with
  | zero => rw [if_pos rfl, streakC_zero_kept a hkr]
  | succ rp =>
    rw [if_neg (Nat.succ_ne_zero rp)]
    simp only [Nat.add_sub_cancel]
    by_cases hk : keptC a rp
    · rw [hprevD rp rfl hk, streakC_succ_kept a rp hkr]
    · have h0 : streakC a rp = 0 := streakC_of_not_kept a rp hk
      have h1 : j2lenGet prev rp = 0 := Nat.le_zero.mp (h0 ▸ hprevS rp)
      rw [h1, streakC_succ_kept a rp hkr, h0]

theorem k_le_streak (a : List Char) (prev : List (ℕ × ℕ))
    (hprevS : ∀ x, j2lenGet prev x ≤ streakC a x) (j : ℕ) (hkj : keptC a j) :
    (if j = 0 then 0 else j2lenGet prev (j - 1)) + 1 ≤ streakC a j := by
  cases j with
  | zero =>
    rw [if_pos rfl]
    exact streakC_pos_of_kept a 0 hkj
  | succ jp =>
    rw [if_neg (Nat.succ_ne_zero jp)]
    simp only [Nat.add_sub_cancel]
    rw [streakC_succ_kept a jp hkj]
    exact Nat.add_le_add_right (hprevS jp) 1

theorem k_le_row (a : List Char) (r : ℕ) (prev : List (ℕ × ℕ))
    (hprevR : ∀ x, j2lenGet prev x ≤ rowCap a r) (hkr : keptC a r) (j : ℕ) :
    (if j = 0 then 0 else j2lenGet prev (j - 1)) + 1 ≤ streakC a r := by
  cases j with
  | zero =>
    rw [if_pos rfl]
    exact streakC_pos_of_kept a r hkr
  | succ jp =>
    rw [if_neg (Nat.succ_ne_zero jp)]
    simp only [Nat.add_sub_cancel]
    have h1 := hprevR jp
    cases r with
    | zero =>
      rw [rowCap] at h1
      have h2 := streakC_zero_kept a hkr
      omega
    | succ rp =>
      rw [rowCap] at h1
      rw [streakC_succ_kept a rp hkr]
      omega

/-! ### The inner-loop invariant on identical sequences

When the two sequences coincide and the window is the full square, every
best-match update the inner loop makes is diagonal: for columns left of the
current row the candidate run is no longer than an already-seen streak, the
diagonal column records exactly the current streak, and columns right of
the current row are bounded by that same streak, which the diagonal (being
processed first among them) has already pushed into `bestsize`. -/
theorem flmInner_spec (a : List Char) (r : ℕ) (hr : r < a.length)
    (prev : List (ℕ × ℕ))
    (hprevS : ∀ x, j2lenGet prev x ≤ streakC a x)
    (hprevR : ∀ x, j2lenGet prev x ≤ rowCap a r)
    (hprevD : ∀ rp, r = rp + 1 → keptC a rp → j2lenGet prev rp = streakC a rp) :
    ∀ (js : List ℕ) (acc : List (ℕ × ℕ)) (best : Match3),
      (∀ j ∈ js, j ∈ b2jGet (chain_b a) (a.getD r ' ')) →
      js.Pairwise (· < ·) →
      (∀ e ∈ acc, ∀ j ∈ js, e.1 < j) →
      (∀ x, j2lenGet acc x ≤ streakC a x) →
      (∀ x, j2lenGet acc x ≤ streakC a r) →
      (keptC a r → (r ∈ js ∨ j2lenGet acc r = streakC a r)) →
      (keptC a r → r ∉ js → streakC a r ≤ best.bestsize) →
      best.besti = best.bestj →
      best.bestj + best.bestsize ≤ r + 1 →
      (∀ x, x < r → streakC a x ≤ best.bestsize) →
      (∀ x, j2lenGet (flmInner prev r 0 a.length js acc best).1 x ≤ streakC a x) ∧
      (∀ x, j2lenGet (flmInner prev r 0 a.length js acc best).1 x ≤ streakC a r) ∧
      (keptC a r →
        j2lenGet (flmInner prev r 0 a.length js acc best).1 r = streakC a r) ∧
      (flmInner prev r 0 a.length js acc best).2.besti =
        (flmInner prev r 0 a.length js acc best).2.bestj ∧
      (flmInner prev r 0 a.length js acc best).2.bestj +
        (flmInner prev r 0 a.length js acc best).2.bestsize ≤ r + 1 ∧
      (∀ x, x < r → streakC a x ≤ (flmInner prev r 0 a.length js acc best).2.bestsize) ∧
      (keptC a r → streakC a r ≤ (flmInner prev r 0 a.length js acc best).2.bestsize) := by
  intro js
  induction js with
  | nil =>
    intro acc best hjs hsort hkeys haccS haccR haccD hbdone hdiag hbound hmax
    simp only [flmInner]
    refine ⟨haccS, haccR, ?_, hdiag, hbound, hmax, ?_⟩
    · intro hkr
      rcases haccD hkr with h | h
      · cases h
      · exact h
    · intro hkr
      exact hbdone hkr (List.not_mem_nil r)
  | cons j js' ih =>
    intro acc best hjs hsort hkeys haccS haccR haccD hbdone hdiag hbound hmax
    obtain ⟨hjn, hjc, hjk⟩ := kept_of_mem_get a r j (hjs j (List.mem_cons_self _ _))
    have hkr : keptC a r := kept_spread a j r hjk hr hjc.symm
    have hsort' := List.pairwise_cons.mp hsort
    have hfresh : ∀ e ∈ acc, e.1 ≠ j :=
      fun e he => Nat.ne_of_lt (hkeys e he j (List.mem_cons_self _ _))
    simp only [flmInner, if_neg (Nat.not_lt_zero j), if_neg (not_le.mpr hjn)]
    set k := (if j = 0 then 0 else j2lenGet prev (j - 1)) + 1 with hkdef
    have hkS : k ≤ streakC a j := k_le_streak a prev hprevS j hjk
    have hkR : k ≤ streakC a r := k_le_row a r prev hprevR hkr j
    have haccS' : ∀ x, j2lenGet (acc ++ [(j, k)]) x ≤ streakC a x := by
      intro x
      by_cases hx : x = j
      · subst hx
        rw [j2lenGet_append_self acc x k hfresh]
        exact hkS
      · rw [j2lenGet_append_ne acc j k x hx]
        exact haccS x
    have haccR' : ∀ x, j2lenGet (acc ++ [(j, k)]) x ≤ streakC a r := by
      intro x
      by_cases hx : x = j
      · subst hx
        rw [j2lenGet_append_self acc x k hfresh]
        exact hkR
      · rw [j2lenGet_append_ne acc j k x hx]
        exact haccR x
    have hkeys' : ∀ e ∈ acc ++ [(j, k)], ∀ x ∈ js', e.1 < x := by
      intro e he x hx
      rcases List.mem_append.mp he with he | he
      · exact hkeys e he x (List.mem_cons_of_mem _ hx)
      · rcases List.mem_singleton.mp he with rfl
        exact hsort'.1 x hx
    have hjs' : ∀ x ∈ js', x ∈ b2jGet (chain_b a) (a.getD r ' ') :=
      fun x hx => hjs x (List.mem_cons_of_mem _ hx)
    rcases Nat.lt_trichotomy j r with hjr | hjr | hjr
    · -- column left of the row: the candidate is bounded by an old streak
      have hnoup : ¬ best.bestsize < k :=
        not_lt.mpr (le_trans hkS (hmax j hjr))
      rw [if_neg hnoup]
      refine ih (acc ++ [(j, k)]) best hjs' hsort'.2 hkeys' haccS' haccR' ?_ ?_
        hdiag hbound hmax
      · intro hkr2
        rcases haccD hkr2 with h | h
        · rcases List.mem_cons.mp h with rfl | h
          · omega
          · exact Or.inl h
        · refine Or.inr ?_
          rw [j2lenGet_append_ne acc j k r (by omega)]
          exact h
      · intro hkr2 hrns
        refine hbdone hkr2 ?_
        intro hmem
        rcases List.mem_cons.mp hmem with rfl | h
        · omega
        · exact hrns h
    · -- the diagonal column: k is exactly the current streak
      subst hjr
      have hkval : k = streakC a j := hkdef ▸ k_val_diag a j prev hprevS hprevD hkr
      have haccD' : keptC a j → (j ∈ js' ∨ j2lenGet (acc ++ [(j, k)]) j = streakC a j) := by
        intro _
        refine Or.inr ?_
        rw [j2lenGet_append_self acc j k hfresh]
        exact hkval
      by_cases hup : best.bestsize < k
      · rw [if_pos hup]
        have hkle : k ≤ j + 1 := hkval ▸ streakC_le a j
        refine ih (acc ++ [(j, k)]) ⟨j + 1 - k, j + 1 - k, k⟩ hjs' hsort'.2 hkeys'
          haccS' haccR' haccD' ?_ rfl (by show j + 1 - k + k ≤ j + 1; omega) ?_
        · intro _ _
          rw [hkval]
        · intro x hx
          exact le_trans (le_trans (hmax x hx) (le_of_lt hup)) le_rfl
      · rw [if_neg hup]
        refine ih (acc ++ [(j, k)]) best hjs' hsort'.2 hkeys' haccS' haccR' haccD' ?_
          hdiag hbound hmax
        intro _ _
        rw [← hkval]
        exact not_lt.mp hup
    · -- column right of the row: the diagonal was processed before it
      have hrns : r ∉ j :: js' := by
        intro hmem
        rcases List.mem_cons.mp hmem with rfl | h
        · omega
        · exact absurd (hsort'.1 r h) (by omega)
      have hnoup : ¬ best.bestsize < k :=
        not_lt.mpr (le_trans hkR (hbdone hkr hrns))
      rw [if_neg hnoup]
      refine ih (acc ++ [(j, k)]) best hjs' hsort'.2 hkeys' haccS' haccR' ?_ ?_
        hdiag hbound hmax
      · intro hkr2
        refine Or.inr ?_
        rw [j2lenGet_append_ne acc j k r (by omega)]
        rcases haccD hkr2 with h | h
        · exact absurd h hrns
        · exact h
      · intro hkr2 _
        exact hbdone hkr2 hrns

/-- The row-sweep state over the full square window on `a` against
itself. -/
def flmState (a : List Char) (r : ℕ) : List (ℕ × ℕ) × Match3 :=
  (List.range' 0 r).foldl
    (fun st i => flmInner st.1 i 0 a.length (b2jGet (chain_b a) (a.getD i ' ')) [] st.2)
    ([], ⟨0, 0, 0⟩)

theorem flmState_spec (a : List Char) (r : ℕ) (hr : r ≤ a.length) :
    (∀ x, j2lenGet (flmState a r).1 x ≤ streakC a x) ∧
      (∀ x, j2lenGet (flmState a r).1 x ≤ rowCap a r) ∧
      (∀ rp, r = rp + 1 → keptC a rp → j2lenGet (flmState a r).1 rp = streakC a rp) ∧
      (flmState a r).2.besti = (flmState a r).2.bestj ∧
      (flmState a r).2.bestj + (flmState a r).2.bestsize ≤ r ∧
      (∀ x, x < r → streakC a x ≤ (flmState a r).2.bestsize) := by
  induction r with
  | zero =>
    refine ⟨fun x => ?_, fun x => ?_, fun rp h => ?_, rfl, ?_, fun x hx => ?_⟩
    · exact Nat.zero_le _
    · exact Nat.le_refl 0
    · cases h
    · exact Nat.le_refl 0
    · cases hx
  | succ rp ih =>
    obtain ⟨ihS, ihR, ihD, ihdiag, ihbound, ihmax⟩ := ih (le_of_lt hr)
    have hstep : flmState a (rp + 1) =
        flmInner (flmState a rp).1 rp 0 a.length
          (b2jGet (chain_b a) (a.getD rp ' ')) [] (flmState a rp).2 := by
      unfold flmState
      rw [List.range'_concat, List.foldl_append]
      simp
    have hsort : (b2jGet (chain_b a) (a.getD rp ' ')).Pairwise (· < ·) := by
      rcases chain_b_get a (a.getD rp ' ') with h | h
      · rw [h]; exact occList_sorted a _
      · rw [h]; exact List.Pairwise.nil
    have hspec := flmInner_spec a rp hr (flmState a rp).1 ihS ihR ihD
      (b2jGet (chain_b a) (a.getD rp ' ')) [] (flmState a rp).2
      (fun j hj => hj) hsort (fun e he => absurd he (List.not_mem_nil e))
      (fun x => Nat.zero_le _) (fun x => Nat.zero_le _)
      (fun hkr => Or.inl hkr)
      (fun hkr hnot => absurd hkr hnot)
      ihdiag (le_trans ihbound (Nat.le_succ rp)) ihmax
    rw [hstep]
    obtain ⟨hS, hR, hD, hdiag, hbound, hmax, hkrow⟩ := hspec
    refine ⟨hS, ?_, ?_, hdiag, hbound, ?_⟩
    · intro x
      rw [rowCap]
      exact hR x
    · intro rp2 heq hk
      have : rp2 = rp := by omega
      subst this
      exact hD hk
    · intro x hx
      rcases Nat.lt_succ_iff_lt_or_eq.mp hx with hx | hx
      · exact hmax x hx
      · subst hx
        by_cases hk : keptC a x
        · exact hkrow hk
        · rw [streakC_of_not_kept a x hk]
          exact Nat.zero_le _

theorem extendLo_self (a : List Char) (p : ℕ) :
    ∀ s : ℕ, extendLo a a 0 0 p p s = ⟨0, 0, s + p⟩ := by
  induction p with
  | zero =>
    intro s
    rfl
  | succ pp ih =>
    intro s
    rw [extendLo, if_pos ⟨Nat.succ_pos pp, Nat.succ_pos pp, rfl⟩]
    simp only [Nat.add_sub_cancel]
    rw [ih (s + 1)]
    have hsp : s + 1 + pp = s + (pp + 1) := by omega
    rw [hsp]

theorem extendHiAux_self (a : List Char) :
    ∀ (rem m : ℕ), a.length - m = rem → m ≤ a.length →
      extendHiAux a a a.length a.length 0 0 rem m = ⟨0, 0, a.length⟩ := by
  intro rem
  induction rem with
  | zero =>
    intro m hd hm
    have hm2 : m = a.length := by omega
    subst hm2
    rfl
  | succ dd ih =>
    intro m hd hm
    rw [extendHiAux, if_pos ⟨by omega, by omega, rfl⟩]
    exact ih (m + 1) (by omega) (by omega)

theorem extendHi_self (a : List Char) (m : ℕ) (hm : m ≤ a.length) :
    extendHi a a a.length a.length 0 0 m = ⟨0, 0, a.length⟩ := by
  rw [extendHi]
  exact extendHiAux_self a (a.length - (0 + m)) m (by omega) hm

/-- On identical sequences, find_longest_match over the full square window
returns the whole diagonal: the sweep's best is diagonal (flmInner_spec)
and the extension loops then stretch it to the full length. -/
theorem flm_self (a : List Char) :
    find_longest_match a a (chain_b a) 0 a.length 0 a.length = ⟨0, 0, a.length⟩ := by
  obtain ⟨-, -, -, hdiag, hbound, -⟩ := flmState_spec a a.length le_rfl
  have heq : flmRows a (chain_b a) 0 a.length 0 a.length = (flmState a a.length).2 := by
    unfold flmRows flmState
    rw [Nat.sub_zero]
  simp only [find_longest_match]
  rw [heq, hdiag, extendLo_self]
  have hle : (flmState a a.length).2.bestsize + (flmState a a.length).2.bestj ≤ a.length := by
    omega
  show extendHi a a a.length a.length 0 0
      ((flmState a a.length).2.bestsize + (flmState a a.length).2.bestj) =
    ⟨0, 0, a.length⟩
  exact extendHi_self a _ hle

theorem blocksSum_self (a : List Char) (fuel : ℕ) :
    blocksSum a a (chain_b a) (fuel + 1) 0 a.length 0 a.length = a.length := by
  rw [blocksSum, flm_self]
  by_cases hn : a.length = 0
  · rw [if_pos hn, hn]
  · rw [if_neg hn]
    have h1 : ¬ ((0 : ℕ) < 0 ∧ (0 : ℕ) < 0) := by simp
    have h2 : ¬ (0 + a.length < a.length ∧ 0 + a.length < a.length) := by omega
    rw [if_neg h1, if_neg h2]
    rfl

theorem smRatio_self (a : List Char) (ha : a ≠ []) : smRatio a a = 1 := by
  simp only [smRatio]
  have hn : a.length ≠ 0 := fun h => ha (List.length_eq_zero.mp h)
  rw [blocksSum_self, if_neg (by omega)]
  have hpos : (0 : ℚ) < (a.length : ℚ) + (a.length : ℚ) := by
    have h1 : (0 : ℚ) < (a.length : ℚ) := by exact_mod_cast Nat.pos_of_ne_zero hn
    linarith
  rw [div_eq_one_iff_eq (ne_of_gt hpos)]
  ring

/-! ### Claim C5 -/

/-- C5: the text-similarity function satisfies similarity(t, t) = 100 for
every text t (hence changePercent = 100 − similarity = 0), two empty texts
compare as 100, and exactly one empty text compares as 0.  The identical
case holds even through the autojunk purge: on equal sequences the matcher
finds the full-length diagonal block (flm_self). -/
theorem calculate_text_similarity_spec :
    (∀ t : String, calculate_text_similarity t t = 100) ∧
      (∀ t : String, 100 - calculate_text_similarity t t = 0) ∧
      calculate_text_similarity "" "" = 100 ∧
      (∀ t : String, t ≠ "" →
        calculate_text_similarity t "" = 0 ∧ calculate_text_similarity "" t = 0) := by
  have hself : ∀ t : String, calculate_text_similarity t t = 100 := by
    intro t
    unfold calculate_text_similarity
    by_cases ht : t = ""
    · rw [if_pos ⟨ht, ht⟩]
    · rw [if_neg (fun h => ht h.1), if_neg (fun h => h.elim ht ht)]
      have hd : t.data ≠ [] := by
        intro h
        apply ht
        cases t with
        | mk d =>
          cases h
          rfl
      rw [smRatio_self t.data hd]
      norm_num
  refine ⟨hself, fun t => by rw [hself t]; ring, by rw [hself ""], ?_⟩
  intro t ht
  constructor
  · unfold calculate_text_similarity
    rw [if_neg (fun h => ht h.1), if_pos (Or.inr rfl)]
  · unfold calculate_text_similarity
    rw [if_neg (fun h => ht h.2), if_pos (Or.inl rfl)]

/-! ## Rounding (Python `round(x, 1)`)

Python's round uses banker's rounding on the exact value of its float
argument.  Every rounded value in the claims is an exact dyadic rational in
the model, where this coincides with round-half-even on rationals. -/

/-- Round-half-even to an integer. -/
def roundHalfEven (q : ℚ) : ℤ :=
  if q - ⌊q⌋ < 1 / 2 then ⌊q⌋
  else if 1 / 2 < q - ⌊q⌋ then ⌊q⌋ + 1
  else if ⌊q⌋ % 2 = 0 then ⌊q⌋ else ⌊q⌋ + 1

/-- Python `round(x, 1)`. -/
def qround1 (q : ℚ) : ℚ := (roundHalfEven (10 * q) : ℚ) / 10

/-- Python `"{:.1f}".format(x)` for the non-negative values the records
format. -/
def formatQ1 (q : ℚ) : String :=
  toString (roundHalfEven (10 * q) / 10) ++ "." ++ toString (roundHalfEven (10 * q) % 10)

/-! ## The price pattern of extract_key_changes

`re.findall(r"\x24[\d,]+(?:\.\d\x7b2\x7d)?|\d+(?:\.\d\x7b2\x7d)?\s*(?:USD|EUR|GBP)", text, re.I)`:
a hand-rolled matcher for this fixed pattern with Python's leftmost,
alternation-ordered, greedy-with-backtracking semantics.  The first
alternative needs no backtracking (nothing follows the optional cents
group, and a shorter `[\d,]+` can never expose a `.`); the second
alternative's only live choice point is the optional cents group, tried
greedy-first (a shorter `\d+` always leaves a digit in front of the
currency word, which can never match). -/

/-- The first alternative: `$` then digits/commas then optional cents. -/
def matchDollar (cs : List Char) : Option (List Char × List Char) :=
  match cs with
  | [] => none
  | c :: rest =>
    if c = '$' then
      let ds := rest.takeWhile (fun x => x.isDigit || x = ',')
      if ds.isEmpty then none
      else
        match rest.drop ds.length with
        | d0 :: d1 :: d2 :: rest3 =>
          if d0 = '.' && d1.isDigit && d2.isDigit then
            some (c :: ds ++ d0 :: d1 :: d2 :: [], rest3)
          else some (c :: ds, rest.drop ds.length)
        | _ => some (c :: ds, rest.drop ds.length)
    else none

/-- A case-insensitive three-letter currency code at the head. -/
def currencyAt : List Char → Option (List Char × List Char)
  | c1 :: c2 :: c3 :: rest =>
    if [c1.toUpper, c2.toUpper, c3.toUpper] = ['U', 'S', 'D'] ∨
        [c1.toUpper, c2.toUpper, c3.toUpper] = ['E', 'U', 'R'] ∨
        [c1.toUpper, c2.toUpper, c3.toUpper] = ['G', 'B', 'P'] then
      some ([c1, c2, c3], rest)
    else none
  | _ => none

/-- Matches `\s*(USD|EUR|GBP)` after an already-matched prefix. -/
def matchCurrencyTail (pre rest : List Char) : Option (List Char × List Char) :=
  match currencyAt (rest.drop (rest.takeWhile Char.isWhitespace).length) with
  | some (cur, rest2) => some (pre ++ rest.takeWhile Char.isWhitespace ++ cur, rest2)
  | none => none

/-- The second alternative: digits, optional cents (greedy first), spaces,
currency code. -/
def matchNumCur (cs : List Char) : Option (List Char × List Char) :=
  let ds := cs.takeWhile Char.isDigit
  if ds.isEmpty then none
  else
    match cs.drop ds.length with
    | d0 :: d1 :: d2 :: rest3 =>
      if d0 = '.' && d1.isDigit && d2.isDigit then
        match matchCurrencyTail (ds ++ d0 :: d1 :: d2 :: []) rest3 with
        | some res => some res
        | none => matchCurrencyTail ds (cs.drop ds.length)
      else matchCurrencyTail ds (cs.drop ds.length)
    | _ => matchCurrencyTail ds (cs.drop ds.length)

theorem currencyAt_len (cs : List Char) (tr : List Char × List Char)
    (h : currencyAt cs = some tr) : tr.2.length < cs.length := by
  match cs with
  | [] => cases h
  | [c1] => cases h
  | [c1, c2] => cases h
  | c1 :: c2 :: c3 :: rest =>
    simp only [currencyAt] at h
    by_cases hcond : [c1.toUpper, c2.toUpper, c3.toUpper] = ['U', 'S', 'D'] ∨
        [c1.toUpper, c2.toUpper, c3.toUpper] = ['E', 'U', 'R'] ∨
        [c1.toUpper, c2.toUpper, c3.toUpper] = ['G', 'B', 'P']
    · rw [if_pos hcond] at h
      cases h
      simp only [List.length_cons]
      omega
    · rw [if_neg hcond] at h
      cases h

theorem matchCurrencyTail_len (pre rest : List Char) (tr : List Char × List Char)
    (h : matchCurrencyTail pre rest = some tr) : tr.2.length < rest.length + 1 := by
  unfold matchCurrencyTail at h
  split at h
  · next cur rest2 hcur =>
    cases h
    have h1 := currencyAt_len _ _ hcur
    rw [List.length_drop] at h1
    simp only at h1 ⊢
    omega
  · cases h

theorem matchDollar_len (cs : List Char) (tr : List Char × List Char)
    (h : matchDollar cs = some tr) : tr.2.length < cs.length := by
  match cs with
  | [] => cases h
  | c :: rest =>
    simp only [matchDollar] at h
    by_cases hc : c = '$'
    · rw [if_pos hc] at h
      have htw : (rest.takeWhile fun x => x.isDigit || x = ',').length ≤ rest.length :=
        (List.takeWhile_sublist _).length_le
      by_cases hds : (rest.takeWhile fun x => x.isDigit || x = ',').isEmpty
      · rw [if_pos hds] at h
        cases h
      · rw [if_neg hds] at h
        have hds1 : 1 ≤ (rest.takeWhile fun x => x.isDigit || x = ',').length := by
          cases hE : rest.takeWhile fun x => x.isDigit || x = ',' with
          | nil => rw [hE] at hds; simp at hds
          | cons x xs => simp [hE]
        split at h
        · next d0 d1 d2 rest3 hdrop =>
          have hr3 : rest3.length + 3 =
              rest.length - (rest.takeWhile fun x => x.isDigit || x = ',').length := by
            have := congrArg List.length hdrop
            rw [List.length_drop] at this
            simp only [List.length_cons] at this
            omega
          split at h
          · cases h
            simp only [List.length_cons]
            omega
          · cases h
            simp only [List.length_drop, List.length_cons]
            omega
        · cases h
          simp only [List.length_drop, List.length_cons]
          omega
    · rw [if_neg hc] at h
      cases h

theorem matchNumCur_len (cs : List Char) (tr : List Char × List Char)
    (h : matchNumCur cs = some tr) : tr.2.length < cs.length := by
  simp only [matchNumCur] at h
  have htw : (cs.takeWhile Char.isDigit).length ≤ cs.length :=
    (List.takeWhile_sublist _).length_le
  by_cases hds : (cs.takeWhile Char.isDigit).isEmpty
  · rw [if_pos hds] at h
    cases h
  · rw [if_neg hds] at h
    have hds1 : 1 ≤ (cs.takeWhile Char.isDigit).length := by
      cases hE : cs.takeWhile Char.isDigit with
      | nil => rw [hE] at hds; simp at hds
      | cons x xs => simp [hE]
    have hdl : (cs.drop (cs.takeWhile Char.isDigit).length).length ≤ cs.length - 1 := by
      rw [List.length_drop]
      omega
    split at h
    · next d0 d1 d2 rest3 hdrop =>
      have hr3 : rest3.length + 3 = (cs.drop (cs.takeWhile Char.isDigit).length).length := by
        have := congrArg List.length hdrop
        simp only [List.length_cons] at this
        omega
      split at h
      · split at h
        · next res hres =>
          cases h
          have := matchCurrencyTail_len _ _ _ hres
          omega
        · have := matchCurrencyTail_len _ _ _ h
          rw [List.length_drop] at this
          omega
      · have := matchCurrencyTail_len _ _ _ h
        rw [List.length_drop] at this
        omega
    · have := matchCurrencyTail_len _ _ _ h
      rw [List.length_drop] at this
      omega

/-- The scan of `re.findall`: try the alternatives in order at each
position, emit the leftmost non-overlapping matches, advance one character
when nothing matches.  The counter starts at the input length and every
step consumes at least one character (matchDollar_len, matchNumCur_len),
so the recursion never exhausts it while input remains. -/
def priceScan : ℕ → List Char → List String
  | 0, _ => []
  | _ + 1, [] => []
  | fuel + 1, c :: rest =>
    match matchDollar (c :: rest) with
    | some tr => String.mk tr.1 :: priceScan fuel tr.2
    | none =>
      match matchNumCur (c :: rest) with
      | some tr => String.mk tr.1 :: priceScan fuel tr.2
      | none => priceScan fuel rest

/-- `re.findall(price_pattern, text, re.I)`. -/
def findPrices (text : String) : List String := priceScan text.data.length text.data

/-! ## Change detector (src/change_detector.py) -/

/-- The fixed stop-word list of extract_key_changes. -/
def common_words : List String :=
  ["the", "a", "an", "and", "or", "but", "in", "on", "at", "to", "for", "of",
   "is", "are", "was", "were"]

/-- The result dict of extract_key_changes: `price_changes` is `[]`
(falsy) or the two-key dict, modelled as an option of the two price-token
lists. -/
structure KeyChanges where
  added_phrases : List String
  removed_phrases : List String
  price_changes : Option (List String × List String)
deriving DecidableEq

/-- Python set equality of two string lists. -/
def sameSet (xs ys : List String) : Bool :=
  xs.all (fun x => ys.contains x) && ys.all (fun y => xs.contains y)

/-- extract_key_changes: lower-case and whitespace-tokenize both texts into
sets, diff them, drop stop words and tokens of length ≤ 3, cap at 20, and
record the price-token sets when they differ (`list(set(..))` modelled as
first-occurrence dedup). -/
def extract_key_changes (old_text new_text : String) : KeyChanges :=
  let old_words := firstDedup [] (splitWs (strLower old_text))
  let new_words := firstDedup [] (splitWs (strLower new_text))
  let added := new_words.filter (fun w => !old_words.contains w)
  let removed := old_words.filter (fun w => !new_words.contains w)
  let significant_added :=
    added.filter (fun w => !common_words.contains w && decide (3 < w.length))
  let significant_removed :=
    removed.filter (fun w => !common_words.contains w && decide (3 < w.length))
  let old_prices := findPrices old_text
  let new_prices := findPrices new_text
  { added_phrases := significant_added.take 20,
    removed_phrases := significant_removed.take 20,
    price_changes :=
      if ¬ sameSet old_prices new_prices then
        some (firstDedup [] old_prices, firstDedup [] new_prices)
      else none }

/-- A page record as stored in a snapshot file (url, content hash, text). -/
structure SnapPage where
  url : String
  content_hash : String
  text_content : String
deriving DecidableEq

/-- The change records compare_pages emits. -/
inductive PageChange
  | new_page (url : String) (summary : String)
  | removed_page (url : String) (summary : String)
  | content_changed (url : String) (change_percent : ℚ) (key_changes : KeyChanges)
      (summary : String)
deriving DecidableEq

/-- Keys of the `{p["url"]: p for p in pages}` dict in first-insertion
order. -/
def urlKeys (ps : List SnapPage) : List String := firstDedup [] (ps.map (fun p => p.url))

/-- Value lookup in that dict: the last page with the given URL wins. -/
def byUrl (ps : List SnapPage) (u : String) : Option SnapPage :=
  ps.reverse.find? (fun p => p.url = u)

/-- compare_pages: new pages first, then removed pages, then the
hash-differing pages whose change percentage meets the threshold. -/
def compare_pages (old_pages new_pages : List SnapPage) : List PageChange :=
  let old_by_url := urlKeys old_pages
  let new_by_url := urlKeys new_pages
  (new_by_url.filter (fun u => !old_by_url.contains u)).map
      (fun url => PageChange.new_page url ("New page discovered: " ++ url)) ++
    (old_by_url.filter (fun u => !new_by_url.contains u)).map
      (fun url => PageChange.removed_page url ("Page no longer accessible: " ++ url)) ++
    old_by_url.filterMap (fun url =>
      if new_by_url.contains url then
        match byUrl old_pages url, byUrl new_pages url with
        | some old_page, some new_page =>
          if old_page.content_hash ≠ new_page.content_hash then
            if CONTENT_CHANGE_THRESHOLD ≤
                100 - calculate_text_similarity old_page.text_content new_page.text_content then
              some (PageChange.content_changed url
                (qround1 (100 -
                  calculate_text_similarity old_page.text_content new_page.text_content))
                (extract_key_changes old_page.text_content new_page.text_content)
                ("Page changed by " ++
                  formatQ1 (100 -
                    calculate_text_similarity old_page.text_content new_page.text_content) ++
                  "%: " ++ url))
            else none
          else none
        | _, _ => none
      else none)

/-- The records compare_pricing emits. -/
inductive PricingRecord
  | pricing_added (url : String) (summary : String)
  | pricing_removed (url : String) (summary : String)
  | pricing_changed (url : String) (price_changes : List String × List String)
      (summary : String)
  | pricing_page_updated (url : String) (summary : String)
deriving DecidableEq

/-- compare_pricing: the four presence cases, then the hash check, then
price-token sets decide between PricingChanged and PricingPageUpdated. -/
def compare_pricing : Option SnapPage → Option SnapPage → Option PricingRecord
  | none, none => none
  | none, some new_pricing =>
    some (.pricing_added new_pricing.url "Pricing page detected for the first time")
  | some old_pricing, none =>
    some (.pricing_removed old_pricing.url "Pricing page no longer accessible")
  | some old_pricing, some new_pricing =>
    if old_pricing.content_hash ≠ new_pricing.content_hash then
      match (extract_key_changes old_pricing.text_content new_pricing.text_content).price_changes with
      | some pc => some (.pricing_changed new_pricing.url pc "Pricing has been updated")
      | none => some (.pricing_page_updated new_pricing.url
          "Pricing page content changed (no price changes detected)")
    else none

/-- One competitor's entry in a crawl snapshot (the fields
detect_all_changes reads). -/
structure CompetitorData where
  pages : List SnapPage
  pricing_page : Option SnapPage
deriving DecidableEq

/-- One competitor's entry in the change map (the new-competitor branch
fills `summary`; the changed branch fills `total_changes`). -/
structure CompetitorChanges where
  summary : Option String
  page_changes : List PageChange
  pricing_changes : Option PricingRecord
  total_changes : Option ℕ
deriving DecidableEq

/-- Snapshot dict keys in first-insertion order. -/
def dataKeys (d : List (String × CompetitorData)) : List String :=
  firstDedup [] (d.map (fun e => e.1))

/-- Snapshot dict lookup: last insertion wins. -/
def dataGet (d : List (String × CompetitorData)) (k : String) : Option CompetitorData :=
  (d.reverse.find? (fun e => e.1 = k)).map (fun e => e.2)

/-- detect_all_changes: iterate the new snapshot's competitors; a name
absent from the old snapshot yields the new-competitor entry; otherwise a
competitor appears in the result iff its page changes or pricing change is
non-empty. -/
def detect_all_changes (old_data new_data : List (String × CompetitorData)) :
    List (String × CompetitorChanges) :=
  (dataKeys new_data).filterMap (fun name =>
    if !(dataKeys old_data).contains name then
      some (name, ⟨some "New competitor added to monitoring", [], none, none⟩)
    else
      match dataGet old_data name, dataGet new_data name with
      | some old_competitor, some new_competitor =>
        let page_changes := compare_pages old_competitor.pages new_competitor.pages
        let pricing_changes :=
          compare_pricing old_competitor.pricing_page new_competitor.pricing_page
        if page_changes ≠ [] ∨ pricing_changes ≠ none then
          some (name, ⟨none, page_changes, pricing_changes,
            some (page_changes.length + if pricing_changes ≠ none then 1 else 0)⟩)
        else none
      | _, _ => none)

/-! ## Visual comparison (src/screenshot_monitor.py)

compare_screenshots is modelled from the point where the two Hamming
distances between the perceptual (gradient) hashes and between the average
hashes have been computed (`hash_diff = hash1 - hash2`,
`ahash_diff = ahash1 - ahash2`); image decoding and hashing live in the
external imagehash library.  The arithmetic below is exact in binary
floating point (distances over the power-of-two denominator 64), so the
rational model is exact. -/

structure VisualComparison where
  similar : Bool
  similarity_percent : ℚ
  phash_diff : ℕ
  ahash_diff : ℕ
deriving DecidableEq

def compare_screenshots (hash_diff ahash_diff : ℕ) : VisualComparison :=
  let phash_similarity : ℚ := max 0 (100 - ((hash_diff : ℚ) / 64 * 100))
  let ahash_similarity : ℚ := max 0 (100 - ((ahash_diff : ℚ) / 64 * 100))
  let avg_similarity := (phash_similarity + ahash_similarity) / 2
  { similar := decide (100 - VISUAL_CHANGE_THRESHOLD ≤ avg_similarity),
    similarity_percent := qround1 avg_similarity,
    phash_diff := hash_diff,
    ahash_diff := ahash_diff }

/-! ### Claim C3 -/

/-- The spec's transition table for pricing comparison (section 4.4 of the
spec, quoted by the claim): (old present?, new present?, hashes equal?,
price-token sets differ?) → outcome, written directly against the raw
price-token sets of the two texts. -/
def pricingTable : Option SnapPage → Option SnapPage → Option PricingRecord
  | none, none => none
  | none, some np => some (.pricing_added np.url "Pricing page detected for the first time")
  | some op, none => some (.pricing_removed op.url "Pricing page no longer accessible")
  | some op, some np =>
    if op.content_hash = np.content_hash then none
    else if ¬ sameSet (findPrices op.text_content) (findPrices np.text_content) then
      some (.pricing_changed np.url
        (firstDedup [] (findPrices op.text_content), firstDedup [] (findPrices np.text_content))
        "Pricing has been updated")
    else
      some (.pricing_page_updated np.url
        "Pricing page content changed (no price changes detected)")

/-- C3: compare_pricing realizes exactly the claim's case table — nothing
when both sides are absent or the hashes agree, PricingAdded/PricingRemoved
for one-sided presence, and for differing hashes exactly one record, chosen
by whether the matched price-token sets differ (carrying both sets), with
the content-change percentage threshold playing no role (the definition
never consults CONTENT_CHANGE_THRESHOLD or the similarity metric). -/
theorem compare_pricing_spec :
    ∀ old_pricing new_pricing : Option SnapPage,
      compare_pricing old_pricing new_pricing = pricingTable old_pricing new_pricing := by
  intro op np
  match op, np with
  | none, none => rfl
  | none, some np => rfl
  | some op, none => rfl
  | some op, some np =>
    simp only [compare_pricing, pricingTable]
    by_cases hh : op.content_hash = np.content_hash
    · rw [if_neg (not_not_intro hh), if_pos hh]
    · rw [if_pos hh, if_neg hh]
      have hkc : (extract_key_changes op.text_content np.text_content).price_changes =
          if ¬ sameSet (findPrices op.text_content) (findPrices np.text_content) then
            some (firstDedup [] (findPrices op.text_content),
              firstDedup [] (findPrices np.text_content))
          else none := rfl
      rw [hkc]
      by_cases hs : sameSet (findPrices op.text_content) (findPrices np.text_content)
      · rw [if_neg (not_not_intro hs), if_neg (not_not_intro hs)]
      · rw [if_pos hs, if_pos hs]

/-! ### Claim C6 -/

/-- C6: comparing any snapshot against itself detects nothing:
compare_pages on an identical page list is empty (every URL is on both
sides and its hashes trivially agree), compare_pricing on an identical
optional pricing page yields no record, and detect_all_changes of a
snapshot against itself is the empty change map. -/
theorem detect_changes_self :
    (∀ ps : List SnapPage, compare_pages ps ps = []) ∧
      (∀ pp : Option SnapPage, compare_pricing pp pp = none) ∧
      (∀ S : List (String × CompetitorData), detect_all_changes S S = []) := by
  have hpages : ∀ ps : List SnapPage, compare_pages ps ps = [] := by
    intro ps
    simp only [compare_pages]
    have h1 : (urlKeys ps).filter (fun u => !(urlKeys ps).contains u) = [] := by
      apply List.filter_eq_nil_iff.mpr
      intro u hu
      simp [List.contains, List.elem_iff, hu]
    have h2 : (urlKeys ps).filterMap (fun url =>
        if (urlKeys ps).contains url then
          match byUrl ps url, byUrl ps url with
          | some old_page, some new_page =>
            if old_page.content_hash ≠ new_page.content_hash then
              if CONTENT_CHANGE_THRESHOLD ≤
                  100 - calculate_text_similarity old_page.text_content new_page.text_content then
                some (PageChange.content_changed url
                  (qround1 (100 -
                    calculate_text_similarity old_page.text_content new_page.text_content))
                  (extract_key_changes old_page.text_content new_page.text_content)
                  ("Page changed by " ++
                    formatQ1 (100 -
                      calculate_text_similarity old_page.text_content new_page.text_content) ++
                    "%: " ++ url))
              else none
            else none
          | _, _ => none
        else none) = [] := by
      apply List.filterMap_eq_nil_iff.mpr
      intro url hu
      cases hby : byUrl ps url with
      | none => simp [hby]
      | some p =>
        simp only [hby]
        split
        · next heq => rw [if_neg (not_not_intro rfl)]
        · rfl
    rw [h1, h2]
    simp
  have hpricing : ∀ pp : Option SnapPage, compare_pricing pp pp = none := by
    intro pp
    cases pp with
    | none => rfl
    | some p =>
      simp only [compare_pricing]
      rw [if_neg (not_not_intro rfl)]
  refine ⟨hpages, hpricing, ?_⟩
  intro S
  simp only [detect_all_changes]
  apply List.filterMap_eq_nil_iff.mpr
  intro name hn
  have hc : (dataKeys S).contains name = true := by
    simp [List.contains, List.elem_iff, hn]
  rw [hc]
  simp only [Bool.not_true, Bool.false_eq_true, if_false]
  cases hg : dataGet S name with
  | none => simp [hg]
  | some comp =>
    simp only [hg]
    have hcond : ¬ (compare_pages comp.pages comp.pages ≠ [] ∨
        compare_pricing comp.pricing_page comp.pricing_page ≠ none) := by
      rw [hpages, hpricing]
      simp
    rw [if_neg hcond]

/-! ### Claim C10 -/

/-- Position of each record kind in compare_pages' emission order. -/
def changeRank : PageChange → ℕ
  | .new_page _ _ => 0
  | .removed_page _ _ => 1
  | .content_changed _ _ _ _ => 2

theorem pairwise_le_of_const (l : List ℕ) (c : ℕ) (h : ∀ x ∈ l, x = c) :
    l.Pairwise (· ≤ ·) := by
  induction l with
  | nil => exact List.Pairwise.nil
  | cons x t ih =>
    refine List.Pairwise.cons ?_ (ih fun y hy => h y (List.mem_cons_of_mem _ hy))
    intro y hy
    rw [h x (List.mem_cons_self _ _), h y (List.mem_cons_of_mem _ hy)]

theorem content_branch_shape (old_pages new_pages : List SnapPage) (x : String)
    (b : PageChange)
    (h : (if (urlKeys new_pages).contains x then
        match byUrl old_pages x, byUrl new_pages x with
        | some old_page, some new_page =>
          if old_page.content_hash ≠ new_page.content_hash then
            if CONTENT_CHANGE_THRESHOLD ≤
                100 - calculate_text_similarity old_page.text_content new_page.text_content then
              some (PageChange.content_changed x
                (qround1 (100 -
                  calculate_text_similarity old_page.text_content new_page.text_content))
                (extract_key_changes old_page.text_content new_page.text_content)
                ("Page changed by " ++
                  formatQ1 (100 -
                    calculate_text_similarity old_page.text_content new_page.text_content) ++
                  "%: " ++ x))
            else none
          else none
        | _, _ => none
      else none) = some b) :
    ∃ cp kc sm, b = PageChange.content_changed x cp kc sm := by
  split at h
  · split at h
    · next op np =>
      split at h
      · split at h
        · cases h
          exact ⟨_, _, _, rfl⟩
        · cases h
      · cases h
    · cases h
  · cases h

/-- C10: the change list compare_pages returns is grouped by kind in a
fixed order — all NewPage records first, then all RemovedPage records,
then all ContentChanged records — stated as: the kind ranks along the list
are sorted. -/
theorem compare_pages_grouped (old_pages new_pages : List SnapPage) :
    ((compare_pages old_pages new_pages).map changeRank).Sorted (· ≤ ·) := by
  simp only [compare_pages]
  rw [List.map_append, List.map_append]
  have hA : ∀ x ∈ List.map changeRank
      (((urlKeys new_pages).filter (fun u => !(urlKeys old_pages).contains u)).map
        (fun url => PageChange.new_page url ("New page discovered: " ++ url))), x = 0 := by
    intro x hx
    rw [List.map_map] at hx
    obtain ⟨u, -, rfl⟩ := List.mem_map.mp hx
    rfl
  have hB : ∀ x ∈ List.map changeRank
      (((urlKeys old_pages).filter (fun u => !(urlKeys new_pages).contains u)).map
        (fun url => PageChange.removed_page url ("Page no longer accessible: " ++ url))), x = 1 := by
    intro x hx
    rw [List.map_map] at hx
    obtain ⟨u, -, rfl⟩ := List.mem_map.mp hx
    rfl
  have hC : ∀ x ∈ List.map changeRank
      ((urlKeys old_pages).filterMap (fun url =>
        if (urlKeys new_pages).contains url then
          match byUrl old_pages url, byUrl new_pages url with
          | some old_page, some new_page =>
            if old_page.content_hash ≠ new_page.content_hash then
              if CONTENT_CHANGE_THRESHOLD ≤
                  100 - calculate_text_similarity old_page.text_content new_page.text_content then
                some (PageChange.content_changed url
                  (qround1 (100 -
                    calculate_text_similarity old_page.text_content new_page.text_content))
                  (extract_key_changes old_page.text_content new_page.text_content)
                  ("Page changed by " ++
                    formatQ1 (100 -
                      calculate_text_similarity old_page.text_content new_page.text_content) ++
                    "%: " ++ url))
              else none
            else none
          | _, _ => none
        else none)), x = 2 := by
    intro x hx
    obtain ⟨b, hb, rfl⟩ := List.mem_map.mp hx
    obtain ⟨u, -, hfu⟩ := List.mem_filterMap.mp hb
    obtain ⟨cp, kc, sm, rfl⟩ := content_branch_shape old_pages new_pages u b hfu
    rfl
  rw [List.Sorted, List.pairwise_append]
  refine ⟨?_, pairwise_le_of_const _ 2 hC, ?_⟩
  · rw [List.pairwise_append]
    refine ⟨pairwise_le_of_const _ 0 hA, pairwise_le_of_const _ 1 hB, ?_⟩
    intro x hx y hy
    rw [hA x hx, hB y hy]
    omega
  · intro x hx y hy
    rcases List.mem_append.mp hx with hx | hx
    · rw [hA x hx, hC y hy]
      omega
    · rw [hB x hx, hC y hy]
      omega

/-! ### Claim C9 -/

/-- C9: key-change extraction builds its term sets from the lower-cased,
whitespace-tokenized texts.  Soundness: every reported added term is a word
of the new text and not of the old text (and vice versa for removed
terms), is not a stop word, and is longer than 3 characters; both lists
are capped at 20 entries; priceChanges is populated (with the
deduplicated old and new matched price-token lists) exactly when the sets
of price-pattern matches differ between the two texts.  Completeness: each
phrase list equals the deduplicated set difference filtered by
significance and truncated to 20, its length is min(20, number of distinct
qualifying terms), and when the qualifying terms number at most 20 every
qualifying term is reported. -/
theorem extract_key_changes_spec (old_text new_text : String) :
    (extract_key_changes old_text new_text).added_phrases.length ≤ 20 ∧
      (extract_key_changes old_text new_text).removed_phrases.length ≤ 20 ∧
      (extract_key_changes old_text new_text).added_phrases.all (fun w =>
        (splitWs (strLower new_text)).contains w &&
        !(splitWs (strLower old_text)).contains w &&
        !common_words.contains w && decide (3 < w.length)) = true ∧
      (extract_key_changes old_text new_text).removed_phrases.all (fun w =>
        (splitWs (strLower old_text)).contains w &&
        !(splitWs (strLower new_text)).contains w &&
        !common_words.contains w && decide (3 < w.length)) = true ∧
      (extract_key_changes old_text new_text).price_changes =
        (if ¬ sameSet (findPrices old_text) (findPrices new_text) then
          some (firstDedup [] (findPrices old_text), firstDedup [] (findPrices new_text))
        else none) ∧
      (extract_key_changes old_text new_text).price_changes.isSome =
        !sameSet (findPrices old_text) (findPrices new_text) ∧
      (extract_key_changes old_text new_text).added_phrases =
        ((firstDedup [] (splitWs (strLower new_text))).filter (fun w =>
          !(firstDedup [] (splitWs (strLower old_text))).contains w &&
          (!common_words.contains w && decide (3 < w.length)))).take 20 ∧
      (extract_key_changes old_text new_text).removed_phrases =
        ((firstDedup [] (splitWs (strLower old_text))).filter (fun w =>
          !(firstDedup [] (splitWs (strLower new_text))).contains w &&
          (!common_words.contains w && decide (3 < w.length)))).take 20 ∧
      (extract_key_changes old_text new_text).added_phrases.length =
        min 20 ((firstDedup [] (splitWs (strLower new_text))).filter (fun w =>
          !(firstDedup [] (splitWs (strLower old_text))).contains w &&
          (!common_words.contains w && decide (3 < w.length)))).length ∧
      (extract_key_changes old_text new_text).removed_phrases.length =
        min 20 ((firstDedup [] (splitWs (strLower old_text))).filter (fun w =>
          !(firstDedup [] (splitWs (strLower new_text))).contains w &&
          (!common_words.contains w && decide (3 < w.length)))).length ∧
      (∀ w : String, w ∈ splitWs (strLower new_text) → w ∉ splitWs (strLower old_text) →
        w ∉ common_words → 3 < w.length →
        ((firstDedup [] (splitWs (strLower new_text))).filter (fun w =>
          !(firstDedup [] (splitWs (strLower old_text))).contains w &&
          (!common_words.contains w && decide (3 < w.length)))).length ≤ 20 →
        w ∈ (extract_key_changes old_text new_text).added_phrases) ∧
      (∀ w : String, w ∈ splitWs (strLower old_text) → w ∉ splitWs (strLower new_text) →
        w ∉ common_words → 3 < w.length →
        ((firstDedup [] (splitWs (strLower old_text))).filter (fun w =>
          !(firstDedup [] (splitWs (strLower new_text))).contains w &&
          (!common_words.contains w && decide (3 < w.length)))).length ≤ 20 →
        w ∈ (extract_key_changes old_text new_text).removed_phrases) := by
  have hcontains_false : ∀ (l : List String) (w : String), w ∉ l → l.contains w = false := by
    intro l w hw
    cases hE : l.contains w
    · rfl
    · rw [List.contains] at hE
      exact absurd (List.elem_iff.mp hE) hw
  have hmem : ∀ (t1 t2 : String) (w : String),
      w ∈ ((firstDedup [] (splitWs (strLower t2))).filter
          (fun w => !(firstDedup [] (splitWs (strLower t1))).contains w)).filter
        (fun w => !common_words.contains w && decide (3 < w.length)) →
      ((splitWs (strLower t2)).contains w &&
        (!(splitWs (strLower t1)).contains w &&
        (!common_words.contains w && decide (3 < w.length)))) = true := by
    intro t1 t2 w hw
    rw [List.mem_filter] at hw
    obtain ⟨hw1, hw2⟩ := hw
    rw [List.mem_filter] at hw1
    obtain ⟨hw3, hw4⟩ := hw1
    rw [mem_firstDedup] at hw3
    have hin : (splitWs (strLower t2)).contains w = true := by
      simp [List.contains, List.elem_iff, hw3.1]
    have h6 : w ∉ firstDedup [] (splitWs (strLower t1)) := by
      intro hmm
      have hct : (firstDedup [] (splitWs (strLower t1))).contains w = true := by
        simp [List.contains, List.elem_iff, hmm]
      rw [hct] at hw4
      simp at hw4
    have h7 : w ∉ splitWs (strLower t1) := by
      intro hmm2
      exact h6 ((mem_firstDedup [] _ w).mpr ⟨hmm2, List.not_mem_nil w⟩)
    have hnotin : (splitWs (strLower t1)).contains w = false :=
      hcontains_false _ _ h7
    rw [hin, hnotin, hw2]
    rfl
  have hfe : ∀ t1 t2 : String,
      ((firstDedup [] (splitWs (strLower t2))).filter
          (fun w => !(firstDedup [] (splitWs (strLower t1))).contains w)).filter
        (fun w => !common_words.contains w && decide (3 < w.length)) =
      (firstDedup [] (splitWs (strLower t2))).filter (fun w =>
        !(firstDedup [] (splitWs (strLower t1))).contains w &&
        (!common_words.contains w && decide (3 < w.length))) := by
    intro t1 t2
    rw [List.filter_filter]
    exact List.filter_congr (fun a _ => by rw [Bool.and_comm])
  have haq : (extract_key_changes old_text new_text).added_phrases =
      ((firstDedup [] (splitWs (strLower new_text))).filter (fun w =>
        !(firstDedup [] (splitWs (strLower old_text))).contains w &&
        (!common_words.contains w && decide (3 < w.length)))).take 20 := by
    show (((firstDedup [] (splitWs (strLower new_text))).filter
        (fun w => !(firstDedup [] (splitWs (strLower old_text))).contains w)).filter
      (fun w => !common_words.contains w && decide (3 < w.length))).take 20 = _
    rw [hfe old_text new_text]
  have hrq : (extract_key_changes old_text new_text).removed_phrases =
      ((firstDedup [] (splitWs (strLower old_text))).filter (fun w =>
        !(firstDedup [] (splitWs (strLower new_text))).contains w &&
        (!common_words.contains w && decide (3 < w.length)))).take 20 := by
    show (((firstDedup [] (splitWs (strLower old_text))).filter
        (fun w => !(firstDedup [] (splitWs (strLower new_text))).contains w)).filter
      (fun w => !common_words.contains w && decide (3 < w.length))).take 20 = _
    rw [hfe new_text old_text]
  have hcomp : ∀ t1 t2 w : String, w ∈ splitWs (strLower t2) → w ∉ splitWs (strLower t1) →
      w ∉ common_words → 3 < w.length →
      ((firstDedup [] (splitWs (strLower t2))).filter (fun w =>
        !(firstDedup [] (splitWs (strLower t1))).contains w &&
        (!common_words.contains w && decide (3 < w.length)))).length ≤ 20 →
      w ∈ ((firstDedup [] (splitWs (strLower t2))).filter (fun w =>
        !(firstDedup [] (splitWs (strLower t1))).contains w &&
        (!common_words.contains w && decide (3 < w.length)))).take 20 := by
    intro t1 t2 w h1 h2 h3 h4 h5
    rw [List.take_of_length_le h5]
    refine List.mem_filter.mpr ⟨(mem_firstDedup [] _ w).mpr ⟨h1, List.not_mem_nil w⟩, ?_⟩
    have hc1 : (firstDedup [] (splitWs (strLower t1))).contains w = false := by
      apply hcontains_false
      intro hmm
      exact h2 ((mem_firstDedup [] _ w).mp hmm).1
    have hc2 : common_words.contains w = false := hcontains_false _ _ h3
    rw [hc1, hc2]
    simp [h4]
  refine ⟨List.length_take_le _ _, List.length_take_le _ _, ?_, ?_, rfl, ?_, haq, hrq,
    ?_, ?_, ?_, ?_⟩
  · apply List.all_eq_true.mpr
    intro w hw
    have hw2 := List.mem_of_mem_take hw
    have := hmem old_text new_text w hw2
    simp at this ⊢
    tauto
  · apply List.all_eq_true.mpr
    intro w hw
    have hw2 := List.mem_of_mem_take hw
    have := hmem new_text old_text w hw2
    simp at this ⊢
    tauto
  · show (if ¬ sameSet (findPrices old_text) (findPrices new_text) then
        some (firstDedup [] (findPrices old_text), firstDedup [] (findPrices new_text))
      else none).isSome = !sameSet (findPrices old_text) (findPrices new_text)
    by_cases hs : sameSet (findPrices old_text) (findPrices new_text)
    · rw [if_neg (not_not_intro hs), hs]
      rfl
    · rw [if_pos hs]
      simp only [Bool.not_eq_true] at hs
      rw [hs]
      rfl
  · rw [haq, List.length_take]
  · rw [hrq, List.length_take]
  · intro w h1 h2 h3 h4 h5
    rw [haq]
    exact hcomp old_text new_text w h1 h2 h3 h4 h5
  · intro w h1 h2 h3 h4 h5
    rw [hrq]
    exact hcomp new_text old_text w h1 h2 h3 h4 h5

/-! ### Claim C4 -/

theorem filter_filterMap_single {α β : Type} (l : List α) (f : α → Option β)
    (p : β → Bool) (u : α) (hnd : l.Nodup) (hu : u ∈ l)
    (hp : ∀ x ∈ l, ∀ b, f x = some b → (p b = true ↔ x = u)) :
    (l.filterMap f).filter p = (f u).toList := by
  induction l with
  | nil => cases hu
  | cons x t ih =>
    rw [List.nodup_cons] at hnd
    obtain ⟨hxnotmem, hnd⟩ := hnd
    have hrestnil : x = u → (t.filterMap f).filter p = [] := by
      intro hxu
      apply List.filter_eq_nil_iff.mpr
      intro c hc
      obtain ⟨y, hy, hfy⟩ := List.mem_filterMap.mp hc
      intro hpc
      have hyu := (hp y (List.mem_cons_of_mem _ hy) c hfy).mp hpc
      exact hxnotmem ((hyu.trans hxu.symm) ▸ hy)
    rw [List.filterMap_cons]
    cases hfx : f x with
    | none =>
      rcases List.mem_cons.mp hu with rfl | hu2
      · rw [hfx, Option.toList_none]
        exact hrestnil rfl
      · exact ih hnd hu2 fun y hy => hp y (List.mem_cons_of_mem _ hy)
    | some b =>
      rw [List.filter_cons]
      by_cases hx : x = u
      · subst hx
        have hpb : p b = true := (hp x (List.mem_cons_self _ _) b hfx).mpr rfl
        rw [if_pos hpb, hfx, Option.toList_some, hrestnil rfl]
      · have hpb : p b = false := by
          cases hpb2 : p b
          · rfl
          · exact absurd ((hp x (List.mem_cons_self _ _) b hfx).mp hpb2) hx
        rw [if_neg (by simp [hpb])]
        rcases List.mem_cons.mp hu with rfl | hu2
        · exact absurd rfl hx
        · exact ih hnd hu2 fun y hy => hp y (List.mem_cons_of_mem _ hy)

/-- Whether a record is the ContentChanged record for this URL. -/
def isContentChangedFor (url : String) : PageChange → Bool
  | .content_changed u _ _ _ => u = url
  | _ => false

/-- C4: for a URL present in both snapshots, compare_pages emits the
ContentChanged record for that URL — carrying the (rounded) change
percentage 100 − similarity and the extracted key changes — exactly when
the two stored content hashes differ and the change percentage is at least
CONTENT_CHANGE_THRESHOLD (= 5); in particular, equal hashes emit no record
for that URL. -/
theorem compare_pages_content_changed (old_pages new_pages : List SnapPage) (url : String)
    (hold : url ∈ urlKeys old_pages) (hnew : url ∈ urlKeys new_pages) :
    (compare_pages old_pages new_pages).filter (isContentChangedFor url) =
      (match byUrl old_pages url, byUrl new_pages url with
      | some old_page, some new_page =>
        if old_page.content_hash ≠ new_page.content_hash ∧
            CONTENT_CHANGE_THRESHOLD ≤
              100 - calculate_text_similarity old_page.text_content new_page.text_content then
          [PageChange.content_changed url
            (qround1 (100 -
              calculate_text_similarity old_page.text_content new_page.text_content))
            (extract_key_changes old_page.text_content new_page.text_content)
            ("Page changed by " ++
              formatQ1 (100 -
                calculate_text_similarity old_page.text_content new_page.text_content) ++
              "%: " ++ url)]
        else []
      | _, _ => []) := by
  simp only [compare_pages]
  rw [List.filter_append, List.filter_append]
  have hA : (((urlKeys new_pages).filter (fun u => !(urlKeys old_pages).contains u)).map
      (fun url2 => PageChange.new_page url2 ("New page discovered: " ++ url2))).filter
      (isContentChangedFor url) = [] := by
    apply List.filter_eq_nil_iff.mpr
    intro b hb
    obtain ⟨u2, -, rfl⟩ := List.mem_map.mp hb
    simp [isContentChangedFor]
  have hB : (((urlKeys old_pages).filter (fun u => !(urlKeys new_pages).contains u)).map
      (fun url2 => PageChange.removed_page url2 ("Page no longer accessible: " ++ url2))).filter
      (isContentChangedFor url) = [] := by
    apply List.filter_eq_nil_iff.mpr
    intro b hb
    obtain ⟨u2, -, rfl⟩ := List.mem_map.mp hb
    simp [isContentChangedFor]
  rw [hA, hB]
  simp only [List.nil_append]
  have hnd : (urlKeys old_pages).Nodup := nodup_firstDedup _ _
  rw [filter_filterMap_single (urlKeys old_pages) _ _ url hnd hold]
  · have hc : (urlKeys new_pages).contains url = true := by
      simp [List.contains, List.elem_iff, hnew]
    rw [hc]
    simp only [if_true]
    cases hbo : byUrl old_pages url with
    | none => rfl
    | some op =>
      cases hbn : byUrl new_pages url with
      | none => rfl
      | some np =>
        dsimp only
        by_cases hh : op.content_hash = np.content_hash
        · rw [if_neg (not_not_intro hh),
            if_neg (fun hand => hand.1 hh), Option.toList_none]
        · by_cases ht : CONTENT_CHANGE_THRESHOLD ≤
              100 - calculate_text_similarity op.text_content np.text_content
          · rw [if_pos hh, if_pos ht, if_pos ⟨hh, ht⟩, Option.toList_some]
          · rw [if_pos hh, if_neg ht, if_neg (fun hand => ht hand.2), Option.toList_none]
  · intro x hx b hfb
    obtain ⟨cp, kc, sm, rfl⟩ := content_branch_shape old_pages new_pages x b hfb
    simp [isContentChangedFor]

/-- Witness for C4: a URL on both sides whose hashes differ and whose
texts share nothing — similarity 0, change 100% ≥ 5 — yields exactly its
ContentChanged record. -/
theorem compare_pages_content_changed_witness :
    (compare_pages [⟨"u", "h1", "aaaa"⟩] [⟨"u", "h2", "bbbb"⟩]).filter
        (isContentChangedFor "u") =
      [PageChange.content_changed "u" 100 ⟨["bbbb"], ["aaaa"], none⟩
        "Page changed by 100.0%: u"] := by
  have h := compare_pages_content_changed [⟨"u", "h1", "aaaa"⟩] [⟨"u", "h2", "bbbb"⟩] "u"
    (by decide) (by decide)
  rw [h]
  with_unfolding_all decide

/-! ### Claim C7 -/

/-- Round-half-even never rounds up by more than one half. -/
theorem roundHalfEven_le (y : ℚ) : (roundHalfEven y : ℚ) ≤ y + 1 / 2 := by
  have hf := Int.floor_le y
  have hf2 := Int.lt_floor_add_one y
  rw [roundHalfEven]
  split_ifs with h1 h2 h3
  · linarith
  · push_cast
    linarith
  · linarith
  · push_cast
    linarith

/-- Round-half-even never rounds down by more than one half. -/
theorem le_roundHalfEven (y : ℚ) : y - 1 / 2 ≤ (roundHalfEven y : ℚ) := by
  have hf := Int.floor_le y
  have hf2 := Int.lt_floor_add_one y
  rw [roundHalfEven]
  split_ifs with h1 h2 h3
  · linarith
  · push_cast
    linarith
  · linarith
  · push_cast
    linarith

/-- C7 counterexample: the reported similarity_percent is not the
arithmetic mean of the two per-hash similarities.  At Hamming distances
1 and 0 the mean is 3175/32 = 99.21875, but the record reports the
rounded value 496/5 = 99.2. -/
theorem compare_screenshots_mean_cex :
    (compare_screenshots 1 0).similarity_percent ≠
      (max 0 (100 - ((1 : ℕ) : ℚ) / 64 * 100) +
        max 0 (100 - ((0 : ℕ) : ℚ) / 64 * 100)) / 2 := by
  with_unfolding_all decide

/-- C7 (amended): for Hamming distances at most 64, compare_screenshots
reports the two distances unchanged, reports similarity_percent as the
arithmetic mean of the per-hash similarities max(0, 100 - d/64*100)
rounded half-even to one decimal (not the exact mean), sets similar to
whether the exact mean is at least 100 - VISUAL_CHANGE_THRESHOLD — which
coincides with the same test on the rounded value — and the reported
similarity_percent always lies in [0, 100]. -/
theorem compare_screenshots_spec (d1 d2 : ℕ) (h1 : d1 ≤ 64) (h2 : d2 ≤ 64) :
    (compare_screenshots d1 d2).phash_diff = d1 ∧
    (compare_screenshots d1 d2).ahash_diff = d2 ∧
    (compare_screenshots d1 d2).similarity_percent =
      qround1 ((max 0 (100 - (d1 : ℚ) / 64 * 100) +
        max 0 (100 - (d2 : ℚ) / 64 * 100)) / 2) ∧
    ((compare_screenshots d1 d2).similar = true ↔
      100 - VISUAL_CHANGE_THRESHOLD ≤
        (max 0 (100 - (d1 : ℚ) / 64 * 100) + max 0 (100 - (d2 : ℚ) / 64 * 100)) / 2) ∧
    ((compare_screenshots d1 d2).similar = true ↔
      100 - VISUAL_CHANGE_THRESHOLD ≤ (compare_screenshots d1 d2).similarity_percent) ∧
    0 ≤ (compare_screenshots d1 d2).similarity_percent ∧
    (compare_screenshots d1 d2).similarity_percent ≤ 100 := by
  have hd1 : (d1 : ℚ) ≤ 64 := by exact_mod_cast h1
  have hd2 : (d2 : ℚ) ≤ 64 := by exact_mod_cast h2
  have hd1n : (0 : ℚ) ≤ (d1 : ℚ) := Nat.cast_nonneg d1
  have hd2n : (0 : ℚ) ≤ (d2 : ℚ) := Nat.cast_nonneg d2
  have hm1 : max (0 : ℚ) (100 - (d1 : ℚ) / 64 * 100) = 100 - (d1 : ℚ) / 64 * 100 := by
    apply max_eq_right
    rw [div_mul_eq_mul_div, sub_nonneg, div_le_iff (by norm_num : (0 : ℚ) < 64)]
    linarith
  have hm2 : max (0 : ℚ) (100 - (d2 : ℚ) / 64 * 100) = 100 - (d2 : ℚ) / 64 * 100 := by
    apply max_eq_right
    rw [div_mul_eq_mul_div, sub_nonneg, div_le_iff (by norm_num : (0 : ℚ) < 64)]
    linarith
  have hA : (max 0 (100 - (d1 : ℚ) / 64 * 100) + max 0 (100 - (d2 : ℚ) / 64 * 100)) / 2 =
      (3200 - 25 * ((d1 : ℚ) + (d2 : ℚ))) / 32 := by
    rw [hm1, hm2]
    field_simp
    ring
  have hq : (compare_screenshots d1 d2).similarity_percent =
      qround1 ((max 0 (100 - (d1 : ℚ) / 64 * 100) + max 0 (100 - (d2 : ℚ) / 64 * 100)) / 2) :=
    rfl
  have hsim : ((compare_screenshots d1 d2).similar = true ↔
      100 - VISUAL_CHANGE_THRESHOLD ≤
        (max 0 (100 - (d1 : ℚ) / 64 * 100) + max 0 (100 - (d2 : ℚ) / 64 * 100)) / 2) := by
    simp only [compare_screenshots, decide_eq_true_eq]
  have hlo := le_roundHalfEven (10 * ((3200 - 25 * ((d1 : ℚ) + (d2 : ℚ))) / 32))
  have hhi := roundHalfEven_le (10 * ((3200 - 25 * ((d1 : ℚ) + (d2 : ℚ))) / 32))
  have hqA : qround1 ((max 0 (100 - (d1 : ℚ) / 64 * 100) +
      max 0 (100 - (d2 : ℚ) / 64 * 100)) / 2) =
      (roundHalfEven (10 * ((3200 - 25 * ((d1 : ℚ) + (d2 : ℚ))) / 32)) : ℚ) / 10 := by
    rw [hA, qround1]
  refine ⟨rfl, rfl, hq, hsim, ?_, ?_, ?_⟩
  · rw [hsim, hq, hqA, hA, VISUAL_CHANGE_THRESHOLD]
    rcases le_or_lt (d1 + d2) 12 with hk | hk
    · have hkq : (d1 : ℚ) + (d2 : ℚ) ≤ 12 := by exact_mod_cast hk
      constructor
      · intro hg
        rw [le_div_iff (by norm_num : (0 : ℚ) < 10)]
        linarith
      · intro hg
        linarith
    · have hkq : (13 : ℚ) ≤ (d1 : ℚ) + (d2 : ℚ) := by exact_mod_cast hk
      constructor
      · intro hg
        linarith
      · intro hg
        rw [le_div_iff (by norm_num : (0 : ℚ) < 10)] at hg
        linarith
  · rw [hq, hqA]
    have hkub : (d1 : ℚ) + (d2 : ℚ) ≤ 128 := by linarith
    have hr0 : (0 : ℤ) ≤ roundHalfEven (10 * ((3200 - 25 * ((d1 : ℚ) + (d2 : ℚ))) / 32)) := by
      have hc : (-1 : ℚ) <
          (roundHalfEven (10 * ((3200 - 25 * ((d1 : ℚ) + (d2 : ℚ))) / 32)) : ℚ) := by
        have hdiv : (0 : ℚ) ≤ (3200 - 25 * ((d1 : ℚ) + (d2 : ℚ))) / 32 :=
          div_nonneg (by linarith) (by norm_num)
        linarith
      have hci : (-1 : ℤ) <
          roundHalfEven (10 * ((3200 - 25 * ((d1 : ℚ) + (d2 : ℚ))) / 32)) := by
        exact_mod_cast hc
      omega
    have hrq : (0 : ℚ) ≤
        (roundHalfEven (10 * ((3200 - 25 * ((d1 : ℚ) + (d2 : ℚ))) / 32)) : ℚ) := by
      exact_mod_cast hr0
    positivity
  · rw [hq, hqA]
    have hr1000 : roundHalfEven (10 * ((3200 - 25 * ((d1 : ℚ) + (d2 : ℚ))) / 32)) ≤ 1000 := by
      have hc : (roundHalfEven (10 * ((3200 - 25 * ((d1 : ℚ) + (d2 : ℚ))) / 32)) : ℚ) <
          1001 := by
        have hdiv : (3200 - 25 * ((d1 : ℚ) + (d2 : ℚ))) / 32 ≤ 100 := by
          rw [div_le_iff (by norm_num : (0 : ℚ) < 32)]
          linarith
        linarith
      have hci : roundHalfEven (10 * ((3200 - 25 * ((d1 : ℚ) + (d2 : ℚ))) / 32)) <
          (1001 : ℤ) := by
        exact_mod_cast hc
      omega
    have hrq : (roundHalfEven (10 * ((3200 - 25 * ((d1 : ℚ) + (d2 : ℚ))) / 32)) : ℚ) ≤
        1000 := by
      exact_mod_cast hr1000
    rw [div_le_iff (by norm_num : (0 : ℚ) < 10)]
    linarith

/-- Witness for C7 at distances 13, 13: the reported similarity is in
range. -/
theorem compare_screenshots_spec_witness :
    0 ≤ (compare_screenshots 13 13).similarity_percent ∧
      (compare_screenshots 13 13).similarity_percent ≤ 100 :=
  ⟨(compare_screenshots_spec 13 13 (by decide) (by decide)).2.2.2.2.2.1,
   (compare_screenshots_spec 13 13 (by decide) (by decide)).2.2.2.2.2.2⟩

end CompMon
